import Mathlib

/-!
# clang-semantic-import: the directive block collector and reorder engine

A shallow embedding of `src/clang-semantic-import.cpp` (namespace `mmi`).

Conventions of the embedding.

* A `std::string` is a Lean `String`, one `Char` per C++ `char`; `length()` is
  `String.length`, `+` is `++`, and `operator<` is `stringLess`
  (lexicographic by unsigned character value, a proper prefix being smaller).
* A `clang::SourceLocation` is its 32-bit raw encoding, `0` being the invalid
  location; offset arithmetic wraps modulo `2 ^ 32`.
* The clang collaborators are explicit: the `SourceManager` is a record of the
  three queries the callback makes, the `Rewriter` and the `DiagnosticsEngine`
  are the lists of calls made on them so far, and `llvm::outs()` is the list of
  lines printed so far. Of a warning the location and the format string are
  recorded; the string added to it is read through a dangling `StringRef` and
  is not.
* `std::sort` is any function meeting the postcondition the C++ standard gives
  it (`StdSort`); `libstdcxx.sort` embeds the `std::sort` of libstdc++
  (`bits/stl_algo.h`), for evaluation.
* The member `ShouldCorrectImports` has no initialiser in the constructor, so
  the value it holds in a fresh callback is a parameter of `construct`.
-/

namespace mmi

/-! ## Source locations -/

/-- The `clang::SourceLocation` raw encoding; `ID = 0` is the invalid location. -/
structure SourceLocation where
  ID : Nat
deriving DecidableEq

namespace SourceLocation

/-- The default-constructed `clang::SourceLocation()`. -/
def invalid : SourceLocation := ⟨0⟩

/-- The method `SourceLocation::isValid`. -/
def isValid (l : SourceLocation) : Bool := l.ID != 0

/-- The method `SourceLocation::isInvalid`. -/
def isInvalid (l : SourceLocation) : Bool := l.ID == 0

/-- Conversion of an unsigned value to the 32-bit signed `IntTy` that
`getLocWithOffset` takes (two's complement). -/
def toIntTy (n : Nat) : Int :=
  if n % 2 ^ 32 < 2 ^ 31 then ((n % 2 ^ 32 : Nat) : Int) else ((n % 2 ^ 32 : Nat) : Int) - 2 ^ 32

/-- The method `SourceLocation::getLocWithOffset`: `ID + Offset` in 32-bit
unsigned arithmetic. -/
def getLocWithOffset (l : SourceLocation) (Offset : Int) : SourceLocation :=
  ⟨(((l.ID : Int) + Offset) % 2 ^ 32).toNat⟩

end SourceLocation

/-- A `clang::FileID`. -/
abbrev FileID := Nat

/-- The queries made on `clang::SourceManager`. A location that
`isInMainFile` accepts is a file location: valid, with the macro bit clear. -/
structure SourceManager where
  isInMainFile : SourceLocation → Bool
  getDecomposedLoc : SourceLocation → FileID × Nat
  getLineNumber : FileID → Nat → Nat
  inMainFile_fileLoc : ∀ l, isInMainFile l = true → 0 < l.ID ∧ l.ID < 2 ^ 31

/-- A `clang::SourceRange`, and the part of a `clang::CharSourceRange` that is read. -/
structure SourceRange where
  Begin : SourceLocation
  End : SourceLocation
deriving DecidableEq

/-- The method `CharSourceRange::getEnd`. -/
def SourceRange.getEnd (r : SourceRange) : SourceLocation := r.End

/-! ## Strings -/

/-- The comparison `operator<` of `std::string` on character sequences. -/
def charsLess : List Char → List Char → Bool
  | _, [] => false
  | [], _ :: _ => true
  | a :: as, b :: bs =>
    if a.toNat < b.toNat then true
    else if b.toNat < a.toNat then false
    else charsLess as bs

/-- The comparison `operator<` of `std::string`. -/
def stringLess (a b : String) : Bool := charsLess a.data b.data

/-- The method `std::string::pop_back` (on a non-empty string). -/
def pop_back (s : String) : String := ⟨s.data.dropLast⟩

/-! ## Import records -/

/-- The class `mmi::Import`. -/
structure Import where
  Name : String
  HashLocation : SourceLocation
  IsAngled : Bool
deriving DecidableEq

/-- The method `Import::to_string`. -/
def Import.to_string (i : Import) : String :=
  if i.IsAngled then
    "#import" ++ " <" ++ i.Name ++ ">"
  else
    "#import" ++ " \"" ++ i.Name ++ "\""

/-- The class `mmi::SemanticImport`. -/
structure SemanticImport where
  Name : String
  HashLocation : SourceLocation
deriving DecidableEq

/-- The method `SemanticImport::token`. -/
def SemanticImport.token (_i : SemanticImport) : String := "@import"

/-- The method `SemanticImport::to_string`. -/
def SemanticImport.to_string (i : SemanticImport) : String :=
  i.token ++ " " ++ i.Name ++ ";"

/-! ## Collaborator calls -/

/-- The part of `clang::Rewriter::RewriteOptions` the callback sets. -/
structure RewriteOptions where
  RemoveLineIfEmpty : Bool
deriving DecidableEq

/-- The default-constructed `RewriteOptions`. -/
def RewriteOptions.default : RewriteOptions := ⟨false⟩

/-- A call made on the `clang::Rewriter`. -/
inductive RewriterCall where
  | RemoveText (Range : SourceRange) (Options : RewriteOptions)
  | ReplaceText (Range : SourceRange) (NewStr : String)
deriving DecidableEq

/-- A warning reported through the `clang::DiagnosticsEngine`: where, and the
format string of the custom diagnostic. The argument of `AddString` is not
recorded: the `StringRef` handed to it points into the `std::string` returned
by `to_string()`, a temporary destroyed at the end of the declaration of
`messageValue`, so the characters that reach the diagnostic are indeterminate. -/
structure Report where
  Loc : SourceLocation
  FormatString : String
deriving DecidableEq

/-- The format string of the one custom diagnostic. -/
def warningFormat : String :=
  "Move all #include/#import directives at the very top of the file, before any code. ('%0')"

/-! ## `std::sort` -/

/-- A comparator is a strict weak ordering, as `std::sort` requires. -/
structure StrictWeakOrder {α : Type} (comp : α → α → Bool) : Prop where
  irrefl : ∀ a, comp a a = false
  trans : ∀ a b c, comp a b = true → comp b c = true → comp a c = true
  incomp_trans : ∀ a b c, comp a b = false → comp b a = false →
    comp b c = false → comp c b = false → comp a c = false ∧ comp c a = false

/-- The contract of `std::sort(first, last, comp)`: the result is a
permutation of the input and, for a strict weak ordering, no element is
followed by a smaller one. Nothing is promised on the relative order of
equivalent elements. -/
structure StdSort where
  sort : {α : Type} → (α → α → Bool) → List α → List α
  perm : ∀ {α : Type} (comp : α → α → Bool) (xs : List α), (sort comp xs).Perm xs
  sorted : ∀ {α : Type} (comp : α → α → Bool) (xs : List α), StrictWeakOrder comp →
    (sort comp xs).Pairwise (fun a b => comp b a = false)

/-! ## The callback -/

/-- The constructor arguments `OrderOption`, `MoveImportOrder` and
`RemoveImport`, constant members of the callback. -/
structure Options where
  OrderOption : Bool
  MoveImportOrder : Bool
  RemoveImport : List String

/-- The mutable members of `mmi::SemanticImportPreprocessorCallback`, with the
calls made so far on its collaborators. -/
structure Callback where
  Imports : List Import
  SemanticImports : List SemanticImport
  FirstLocation : SourceLocation
  LastLocation : SourceLocation
  ShouldCorrectImports : Bool
  Rewriter : List RewriterCall
  DiagnosticEngine : List Report
  outs : List String
deriving DecidableEq

/-- The constructor of the callback. `Imports`, `SemanticImports` and the two
locations are default-constructed; `ShouldCorrectImports` is not mentioned in
the initialiser list, so it holds the indeterminate value `garbage`. -/
def construct (garbage : Bool) : Callback :=
  { Imports := [], SemanticImports := [],
    FirstLocation := SourceLocation.invalid, LastLocation := SourceLocation.invalid,
    ShouldCorrectImports := garbage,
    Rewriter := [], DiagnosticEngine := [], outs := [] }

/-- The method `getLineNumber`. -/
def getLineNumber (sm : SourceManager) (HashLocation : SourceLocation) : Nat :=
  let d := sm.getDecomposedLoc HashLocation
  sm.getLineNumber d.1 d.2

/-- The method `InclusionDirective`. -/
def InclusionDirective (sm : SourceManager) (s : Callback) (HashLoc : SourceLocation)
    (FileName : String) (IsAngled : Bool) (FilenameRange : SourceRange)
    (Imported : Bool) : Callback :=
  if !sm.isInMainFile HashLoc then s else
  let s := if s.Imports.isEmpty && s.SemanticImports.isEmpty then
    { s with FirstLocation := HashLoc } else s
  let lastInclude : Import := ⟨FileName, HashLoc, IsAngled⟩
  let s := match s.SemanticImports with
    | [] => s
    | firstModule :: _ =>
      let SemanticImportLineNumber := getLineNumber sm firstModule.HashLocation
      let CurrentImportLineNumber := getLineNumber sm HashLoc
      if CurrentImportLineNumber > SemanticImportLineNumber then
        { s with
          ShouldCorrectImports := true
          DiagnosticEngine := s.DiagnosticEngine ++
            [Report.mk lastInclude.HashLocation warningFormat] }
      else s
  let s := { s with LastLocation := FilenameRange.getEnd }
  if Imported then
    { s with Imports := s.Imports ++ [lastInclude] }
  else
    { s with Imports := s.Imports ++ [lastInclude] }

/-- The loop of `moduleImport` over the path: every segment overwrites
`moduleName` and `LastLocation`. -/
def pathLoop (ImportLoc : SourceLocation) (token : String) :
    List String → String × SourceLocation → String × SourceLocation
  | [], acc => acc
  | Info :: rest, _ =>
    pathLoop ImportLoc token rest
      (Info, ImportLoc.getLocWithOffset (SourceLocation.toIntTy (token.length + Info.length)))

/-- The method `moduleImport`. -/
def moduleImport (sm : SourceManager) (o : Options) (s : Callback)
    (ImportLoc : SourceLocation) (Path : List String) : Callback :=
  if !sm.isInMainFile ImportLoc then s else
  let s := if s.SemanticImports.isEmpty && s.Imports.isEmpty then
    { s with FirstLocation := ImportLoc } else s
  let token := "import  "
  let r := pathLoop ImportLoc token Path ("", s.LastLocation)
  let moduleName := r.1
  let s := { s with LastLocation := r.2 }
  if !o.RemoveImport.isEmpty && o.RemoveImport.contains moduleName then
    { s with Rewriter := s.Rewriter ++
        [RewriterCall.RemoveText
          (SourceRange.mk (ImportLoc.getLocWithOffset (-1)) s.LastLocation)
          (RewriteOptions.mk true)] }
  else
    { s with SemanticImports := s.SemanticImports ++ [SemanticImport.mk moduleName ImportLoc] }

/-- The method `FileNotFound`. -/
def FileNotFound (s : Callback) (FileName : String) : Callback :=
  { s with outs := s.outs ++ ["File not Found: " ++ FileName ++ "\n"] }

/-- The method `FirstLocationOffset`. The local called `LineNumber` is the
second component of the decomposed location, the offset in the file; the
result is returned as `unsigned`. -/
def FirstLocationOffset (sm : SourceManager) (s : Callback) : Nat :=
  let LineNumber := (sm.getDecomposedLoc s.FirstLocation).2
  if LineNumber > 1 then 2 ^ 32 - 1 else 0

/-- The method `SortImports`. -/
def SortImports (srt : StdSort) (s : Callback) : Callback :=
  { s with
    Imports := srt.sort (fun a b => stringLess a.Name b.Name) s.Imports
    SemanticImports := srt.sort (fun a b => stringLess a.Name b.Name) s.SemanticImports }

/-- The text `MoveImports` builds. -/
def CorrectedImports (s : Callback) : String :=
  let c := s.Imports.foldl (fun acc i => acc ++ (i.to_string ++ "\n")) ""
  let c := c ++ "\n"
  let c := s.SemanticImports.foldl (fun acc i => acc ++ (i.to_string ++ "\n")) c
  pop_back c

/-- The range `MoveImports` rewrites. -/
def MoveRange (sm : SourceManager) (s : Callback) : SourceRange :=
  ⟨s.FirstLocation.getLocWithOffset (SourceLocation.toIntTy (FirstLocationOffset sm s)),
    s.LastLocation⟩

/-- The method `MoveImports`. -/
def MoveImports (sm : SourceManager) (s : Callback) : Callback :=
  { s with Rewriter := s.Rewriter ++
      [RewriterCall.RemoveText (MoveRange sm s) RewriteOptions.default,
       RewriterCall.ReplaceText (MoveRange sm s) (CorrectedImports s)] }

/-- The method `EndOfMainFile`. -/
def EndOfMainFile (sm : SourceManager) (srt : StdSort) (o : Options) (s : Callback) :
    Callback :=
  if s.ShouldCorrectImports && s.FirstLocation.isValid && s.LastLocation.isValid then
    let s := if o.OrderOption then SortImports srt s else s
    if o.MoveImportOrder then MoveImports sm s else s
  else if s.FirstLocation.isInvalid || s.LastLocation.isInvalid then
    { s with outs := s.outs ++ ["File Invalid" ++ "\n"] }
  else s

/-- The test `InclusionDirective` makes before it warns: a semantic import is
buffered and the line of the directive is greater than the line of the first
buffered one. -/
def lineAfterFirstModule (sm : SourceManager) (s : Callback) (HashLoc : SourceLocation) : Bool :=
  match s.SemanticImports with
  | [] => false
  | firstModule :: _ =>
    decide (getLineNumber sm HashLoc > getLineNumber sm firstModule.HashLocation)

/-! ## Event streams -/

/-- A callback invocation made by the preprocessor before the end of the main file. -/
inductive PPEvent where
  | InclusionDirective (HashLoc : SourceLocation) (FileName : String) (IsAngled : Bool)
      (FilenameRange : SourceRange) (Imported : Bool)
  | moduleImport (ImportLoc : SourceLocation) (Path : List String)
  | FileNotFound (FileName : String)

/-- The event is a call of `InclusionDirective`. -/
def PPEvent.isInclusionDirective : PPEvent → Bool
  | PPEvent.InclusionDirective _ _ _ _ _ => true
  | _ => false

/-- The event is a call of `moduleImport`. -/
def PPEvent.isModuleImport : PPEvent → Bool
  | PPEvent.moduleImport _ _ => true
  | _ => false

/-- The event is a semantic import of the analysed file whose resolved name,
the last segment of its path, is in the removal list. -/
def PPEvent.removedByName (sm : SourceManager) (o : Options) : PPEvent → Bool
  | PPEvent.moduleImport ImportLoc Path =>
    sm.isInMainFile ImportLoc && decide (Path.getLast?.getD "" ∈ o.RemoveImport)
  | _ => false

/-- Dispatch of one event to its method. -/
def dispatch (sm : SourceManager) (o : Options) (s : Callback) : PPEvent → Callback
  | PPEvent.InclusionDirective h f a r i => InclusionDirective sm s h f a r i
  | PPEvent.moduleImport l p => moduleImport sm o s l p
  | PPEvent.FileNotFound f => FileNotFound s f

/-- The callback after a stream of events, delivered in order. -/
def deliver (sm : SourceManager) (o : Options) (s : Callback) (evs : List PPEvent) : Callback :=
  evs.foldl (dispatch sm o) s

/-- A whole run: a fresh callback, the events, then `EndOfMainFile`. -/
def runFile (sm : SourceManager) (srt : StdSort) (o : Options) (garbage : Bool)
    (evs : List PPEvent) : Callback :=
  EndOfMainFile sm srt o (deliver sm o (construct garbage) evs)

/-! ## The `std::sort` of libstdc++

The routines of `bits/stl_algo.h` behind `std::sort`, on an array held as a
list and iterators held as positions. -/

namespace libstdcxx

/-- The comparison `comp(i, j)` of two iterators into the array `l`; an
iterator outside the array compares false. -/
def compAt {α : Type} (comp : α → α → Bool) (l : List α) (i j : Nat) : Bool :=
  match l[i]?, l[j]? with
  | some a, some b => comp a b
  | _, _ => false

/-- The call `std::iter_swap(i, j)`. -/
def iter_swap {α : Type} (l : List α) (i j : Nat) : List α :=
  match l[i]?, l[j]? with
  | some a, some b => (l.set i b).set j a
  | _, _ => l

/-- The loop of `__unguarded_linear_insert`: `val` moves left from `last` past
every element it is smaller than; it stops at the start of the array. -/
def linear_insert_loop {α : Type} (comp : α → α → Bool) (val : α) :
    Nat → List α → List α
  | 0, l => l.set 0 val
  | next + 1, l =>
    match l[next]? with
    | some x =>
      if comp val x then linear_insert_loop comp val next (l.set (next + 1) x)
      else l.set (next + 1) val
    | none => l.set (next + 1) val

/-- The function `__unguarded_linear_insert(last, comp)`. -/
def unguarded_linear_insert {α : Type} (comp : α → α → Bool) (l : List α) (last : Nat) :
    List α :=
  match l[last]? with
  | some val => linear_insert_loop comp val last l
  | none => l

/-- The body of the loop of `__insertion_sort` at `i`. -/
def insertion_step {α : Type} (comp : α → α → Bool) (first : Nat) (l : List α) (i : Nat) :
    List α :=
  if compAt comp l i first then
    match l[i]? with
    | some val => l.take first ++ val :: ((l.drop first).take (i - first) ++ l.drop (i + 1))
    | none => l
  else unguarded_linear_insert comp l i

/-- The function `__insertion_sort(first, last, comp)`. -/
def insertion_sort {α : Type} (comp : α → α → Bool) (l : List α) (first last : Nat) :
    List α :=
  if first = last then l
  else (List.range' (first + 1) (last - (first + 1))).foldl (insertion_step comp first) l

/-- The function `__unguarded_insertion_sort(first, last, comp)`. -/
def unguarded_insertion_sort {α : Type} (comp : α → α → Bool) (l : List α)
    (first last : Nat) : List α :=
  (List.range' first (last - first)).foldl (unguarded_linear_insert comp) l

/-- The constant `_S_threshold`. -/
def S_threshold : Nat := 16

/-- The function `__final_insertion_sort(first, last, comp)`. -/
def final_insertion_sort {α : Type} (comp : α → α → Bool) (l : List α) (first last : Nat) :
    List α :=
  if last - first > S_threshold then
    unguarded_insertion_sort comp (insertion_sort comp l first (first + S_threshold))
      (first + S_threshold) last
  else insertion_sort comp l first last

/-- The function `__move_median_to_first(result, a, b, c, comp)`. -/
def move_median_to_first {α : Type} (comp : α → α → Bool) (l : List α)
    (result a b c : Nat) : List α :=
  if compAt comp l a b then
    if compAt comp l b c then iter_swap l result b
    else if compAt comp l a c then iter_swap l result c
    else iter_swap l result a
  else if compAt comp l a c then iter_swap l result a
  else if compAt comp l b c then iter_swap l result c
  else iter_swap l result b

/-- The loop `while (comp(first, pivot)) ++first`, at most `fuel` steps. -/
def scan_up {α : Type} (comp : α → α → Bool) (l : List α) (pivot : Nat) :
    Nat → Nat → Nat
  | 0, first => first
  | fuel + 1, first =>
    if compAt comp l first pivot then scan_up comp l pivot fuel (first + 1) else first

/-- The loop `while (comp(pivot, last)) --last`. -/
def scan_down {α : Type} (comp : α → α → Bool) (l : List α) (pivot : Nat) : Nat → Nat
  | 0 => 0
  | last + 1 =>
    if compAt comp l pivot (last + 1) then scan_down comp l pivot last else last + 1

/-- The function `__unguarded_partition(first, last, pivot, comp)`, its outer
loop run at most `fuel` times; the result is the array and the cut. -/
def unguarded_partition {α : Type} (comp : α → α → Bool) (pivot : Nat) :
    Nat → List α → Nat → Nat → List α × Nat
  | 0, l, first, _ => (l, first)
  | fuel + 1, l, first, last =>
    let first := scan_up comp l pivot l.length first
    let last := scan_down comp l pivot (last - 1)
    if ¬ first < last then (l, first)
    else unguarded_partition comp pivot fuel (iter_swap l first last) (first + 1) last

/-- The function `__unguarded_partition_pivot(first, last, comp)`. -/
def unguarded_partition_pivot {α : Type} (comp : α → α → Bool) (l : List α)
    (first last : Nat) : List α × Nat :=
  let mid := first + (last - first) / 2
  let l := move_median_to_first comp l first (first + 1) mid (last - 1)
  unguarded_partition comp first l.length l (first + 1) last

/-- The function `__introsort_loop(first, last, depth_limit, comp)`. The heap
sort taken when the depth limit is used up is not embedded: the result is
`none` there. -/
def introsort_loop {α : Type} (comp : α → α → Bool) :
    Nat → List α → Nat → Nat → Option (List α)
  | depth_limit, l, first, last =>
    if last - first > S_threshold then
      match depth_limit with
      | 0 => none
      | depth_limit + 1 =>
        let r := unguarded_partition_pivot comp l first last
        match introsort_loop comp depth_limit r.1 r.2 last with
        | none => none
        | some l => introsort_loop comp depth_limit l first r.2
    else some l

/-- The loop of `std::__lg`, at most `fuel` halvings. -/
def lg_loop : Nat → Nat → Nat
  | 0, _ => 0
  | fuel + 1, n => if n ≥ 2 then lg_loop fuel (n / 2) + 1 else 0

/-- The function `std::__lg`: the binary logarithm, rounded down. -/
def lg (n : Nat) : Nat := lg_loop n n

/-- The function `std::sort(first, last, comp)` on the whole array. -/
def sort {α : Type} (comp : α → α → Bool) (l : List α) : Option (List α) :=
  if l.length = 0 then some l
  else
    match introsort_loop comp (lg l.length * 2) l 0 l.length with
    | none => none
    | some l => some (final_insertion_sort comp l 0 l.length)

end libstdcxx

/-! ## Concrete collaborators, for evaluation -/

/-- Insertion of `x` in front of the first element that is not smaller than it. -/
def insertSorted {α : Type} (comp : α → α → Bool) (x : α) : List α → List α
  | [] => [x]
  | y :: ys => if comp y x then y :: insertSorted comp x ys else x :: y :: ys

/-- Insertion sort; elements that compare equal keep their order, as in the
insertion pass of libstdc++. -/
def insertionSort {α : Type} (comp : α → α → Bool) : List α → List α
  | [] => []
  | x :: xs => insertSorted comp x (insertionSort comp xs)

/-- Insertion sort as an implementation of `std::sort`. -/
def insertionStdSort : StdSort where
  sort := fun comp xs => insertionSort comp xs
  perm := by
    intro α comp xs
    have hins : ∀ (x : α) (l : List α), (insertSorted comp x l).Perm (x :: l) := by
      intro x l
      induction l with
      | nil => exact List.Perm.refl _
      | cons y ys ih =>
        simp only [insertSorted]
        split
        · exact (List.Perm.cons y ih).trans (List.Perm.swap x y ys)
        · exact List.Perm.refl _
    induction xs with
    | nil => exact List.Perm.refl _
    | cons x xs ih => exact (hins x _).trans (List.Perm.cons x ih)
  sorted := by
    intro α comp xs hswo
    have hmem : ∀ (x z : α) (l : List α), z ∈ insertSorted comp x l → z = x ∨ z ∈ l := by
      intro x z l
      induction l with
      | nil =>
        intro hz
        simp only [insertSorted, List.mem_singleton] at hz
        exact Or.inl hz
      | cons y ys ih =>
        simp only [insertSorted]
        split
        · intro hz
          rcases List.mem_cons.1 hz with h | h
          · exact Or.inr (h ▸ List.mem_cons_self _ _)
          · rcases ih h with h1 | h1
            · exact Or.inl h1
            · exact Or.inr (List.mem_cons_of_mem _ h1)
        · intro hz
          exact List.mem_cons.1 hz
    have hneg : ∀ x y z : α, comp y x = false → comp z y = false → comp z x = false := by
      intro x y z hyx hzy
      cases hzx : comp z x with
      | false => rfl
      | true =>
        cases hyz : comp y z with
        | true =>
          rw [hswo.trans y z x hyz hzx] at hyx
          cases hyx
        | false =>
          cases hxy : comp x y with
          | true =>
            rw [hswo.trans z x y hzx hxy] at hzy
            cases hzy
          | false =>
            rw [(hswo.incomp_trans z y x hzy hyz hyx hxy).1] at hzx
            cases hzx
    have hins : ∀ (x : α) (l : List α), l.Pairwise (fun a b => comp b a = false) →
        (insertSorted comp x l).Pairwise (fun a b => comp b a = false) := by
      intro x l
      induction l with
      | nil =>
        intro _
        simp only [insertSorted, List.pairwise_cons, List.not_mem_nil, false_implies,
          implies_true, List.Pairwise.nil, and_self]
      | cons y ys ih =>
        intro hp
        have hp1 := (List.pairwise_cons.1 hp).1
        have hp2 := (List.pairwise_cons.1 hp).2
        simp only [insertSorted]
        split
        · rename_i hyx
          refine List.pairwise_cons.2 ⟨?_, ih hp2⟩
          intro z hz
          rcases hmem x z ys hz with h | h
          · rw [h]
            cases hxy : comp x y with
            | false => rfl
            | true =>
              have hyy := hswo.trans y x y hyx hxy
              rw [hswo.irrefl] at hyy
              cases hyy
          · exact hp1 z h
        · rename_i hyx
          have hyx1 : comp y x = false := Bool.eq_false_iff.2 hyx
          refine List.pairwise_cons.2 ⟨?_, hp⟩
          intro z hz
          rcases List.mem_cons.1 hz with h | h
          · rw [h]
            exact hyx1
          · exact hneg x y z hyx1 (hp1 z h)
    induction xs with
    | nil => exact List.Pairwise.nil
    | cons x xs ih => exact hins x _ ih

/-- The arrangement the `std::sort` of libstdc++ gives `xs`. The algorithm is
run on the positions of the array, compared through the elements they hold, and
the elements are read in the order of the positions it leaves: `std::sort`
moves elements by the results of `comp` alone, so this is the arrangement it
produces. Where the embedded algorithm gives no result (the heap sort branch)
insertion sort stands in. -/
def libstdcxx.arrange {α : Type} (comp : α → α → Bool) (xs : List α) : List α :=
  match libstdcxx.sort
      (fun i j => match xs[i]?, xs[j]? with
        | some a, some b => comp a b
        | _, _ => false)
      (List.range xs.length) with
  | some idx =>
    if idx.Perm (List.range xs.length) ∧
        (idx.filterMap (fun i => xs[i]?)).Pairwise (fun a b => comp b a = false) then
      idx.filterMap (fun i => xs[i]?)
    else insertionSort comp xs
  | none => insertionSort comp xs

/-- The `std::sort` of libstdc++ as an implementation of `std::sort`. -/
def libstdcxxStdSort : StdSort where
  sort := fun comp xs => libstdcxx.arrange comp xs
  perm := by
    intro α comp xs
    show (libstdcxx.arrange comp xs).Perm xs
    unfold libstdcxx.arrange
    have hrange : ∀ ys : List α, (List.range ys.length).filterMap (fun i => ys[i]?) = ys := by
      intro ys
      induction ys using List.reverseRecOn with
      | nil => rfl
      | append_singleton l a ih =>
        rw [List.length_append, List.length_singleton, List.range_succ, List.filterMap_append]
        have h1 : (List.range l.length).filterMap (fun i => (l ++ [a])[i]?) =
            (List.range l.length).filterMap (fun i => l[i]?) := by
          apply List.filterMap_congr
          intro i hi
          exact List.getElem?_append_left (List.mem_range.1 hi)
        rw [h1, ih]
        simp
    split
    · split
      · rename_i h
        have h2 := h.1.filterMap (fun i => xs[i]?)
        rw [hrange xs] at h2
        exact h2
      · exact insertionStdSort.perm comp xs
    · exact insertionStdSort.perm comp xs
  sorted := by
    intro α comp xs hswo
    show (libstdcxx.arrange comp xs).Pairwise (fun a b => comp b a = false)
    unfold libstdcxx.arrange
    split
    · split
      · rename_i h
        exact h.2
      · exact insertionStdSort.sorted comp xs hswo
    · exact insertionStdSort.sorted comp xs hswo

/-- The location of the character at `Offset` in the main file of `mainFileSM`. -/
def at_ (Offset : Nat) : SourceLocation := ⟨2 + Offset⟩

/-- A source manager holding one main file with contents `text`, loaded at
encoding `2`: its locations are `2 .. 2 + text.length`, the offset of a location
is its distance from the start, and the line of an offset is one more than the
number of newlines before it. -/
def mainFileSM (text : String) : SourceManager where
  isInMainFile l := decide (2 ≤ l.ID) && decide (l.ID ≤ 2 + text.length) && decide (l.ID < 2 ^ 31)
  getDecomposedLoc l := (1, l.ID - 2)
  getLineNumber _ Offset := 1 + (text.data.take Offset).count '\n'
  inMainFile_fileLoc := by
    intro l h
    simp only [Bool.and_eq_true, decide_eq_true_eq] at h
    omega

/-! ## Scenarios -/

/-- A semantic import and a textual import written on one line. -/
def sameLineText : String := "@import z; #import \"a.h\"\n"

/-- The callback after the semantic import of `sameLineText`. -/
def sameLineState : Callback :=
  deliver (mainFileSM sameLineText) ⟨false, false, []⟩ (construct false)
    [PPEvent.moduleImport (at_ 1) ["z"]]

/-- Scenario B with a second textual import: `@import z;`, then `#import "b.h"`
and `#import "a.h"` on the next two lines. -/
def violationText : String := "@import z;\n#import \"b.h\"\n#import \"a.h\"\n"

/-- The events of `violationText`. -/
def violationEvents : List PPEvent :=
  [PPEvent.moduleImport (at_ 1) ["z"],
   PPEvent.InclusionDirective (at_ 11) "b.h" false ⟨at_ 19, at_ 24⟩ false,
   PPEvent.InclusionDirective (at_ 25) "a.h" false ⟨at_ 33, at_ 38⟩ false]

/-- Scenario C: a single semantic import, named in the removal list. -/
def removalText : String := "@import remove_me;\n"

/-- A file of one textual import and nothing else. -/
def textualOnlyText : String := "#import \"a.h\"\n"

/-- The event of `textualOnlyText`. -/
def textualOnlyEvents : List PPEvent :=
  [PPEvent.InclusionDirective (at_ 0) "a.h" false ⟨at_ 8, at_ 13⟩ false]

/-- A violation whose first directive is on the first line, after one space. -/
def indentedText : String := " @import z;\n#import \"a.h\"\n"

/-- The events of `indentedText`. -/
def indentedEvents : List PPEvent :=
  [PPEvent.moduleImport (at_ 2) ["z"],
   PPEvent.InclusionDirective (at_ 12) "a.h" false ⟨at_ 20, at_ 25⟩ false]

/-- A violation whose first directive opens the second line, the first line being empty. -/
def secondLineText : String := "\n#import <x.h>\n@import z;\n#import <y.h>\n"

/-- The events of `secondLineText`. -/
def secondLineEvents : List PPEvent :=
  [PPEvent.InclusionDirective (at_ 1) "x.h" true ⟨at_ 9, at_ 14⟩ false,
   PPEvent.moduleImport (at_ 16) ["z"],
   PPEvent.InclusionDirective (at_ 26) "y.h" true ⟨at_ 34, at_ 39⟩ false]

/-- No textual import of the analysed file is delivered after a recorded
semantic import; `seen` tells whether a semantic import is recorded already. -/
def noTextualAfterSemantic (sm : SourceManager) (o : Options) : Bool → List PPEvent → Bool
  | _, [] => true
  | seen, PPEvent.InclusionDirective HashLoc _ _ _ _ :: evs =>
    !(seen && sm.isInMainFile HashLoc) && noTextualAfterSemantic sm o seen evs
  | seen, PPEvent.moduleImport ImportLoc Path :: evs =>
    noTextualAfterSemantic sm o
      (seen || (sm.isInMainFile ImportLoc && !decide (Path.getLast?.getD "" ∈ o.RemoveImport)))
      evs
  | seen, PPEvent.FileNotFound _ :: evs => noTextualAfterSemantic sm o seen evs

/-- Scenario A: two textual imports, then a semantic import, one per line. -/
def scenarioAText : String := "#include \"b.h\"\n#include \"a.h\"\n@import z;\n"

/-- The textual imports of `scenarioAText`. -/
def scenarioATextual : List PPEvent :=
  [PPEvent.InclusionDirective (at_ 0) "b.h" false ⟨at_ 9, at_ 14⟩ false,
   PPEvent.InclusionDirective (at_ 15) "a.h" false ⟨at_ 24, at_ 29⟩ false]

/-- The semantic import of `scenarioAText`. -/
def scenarioASemantic : List PPEvent :=
  [PPEvent.moduleImport (at_ 31) ["z"]]

/-! ## Reference definitions -/

/-- The end position the specification asks for: the import position plus the
keyword allowance of 8, the lengths of all path segments and one separator
between consecutive segments. -/
def accumulatedEnd (ImportLoc : SourceLocation) (Path : List String) : SourceLocation :=
  ImportLoc.getLocWithOffset
    (SourceLocation.toIntTy (8 + (Path.map String.length).sum + (Path.length - 1)))

/-- The textual imports of the analysed file in a stream, as records, in
encounter order. -/
def textualRecords (sm : SourceManager) : List PPEvent → List Import
  | [] => []
  | PPEvent.InclusionDirective HashLoc FileName IsAngled _ _ :: evs =>
    if sm.isInMainFile HashLoc then
      Import.mk FileName HashLoc IsAngled :: textualRecords sm evs
    else textualRecords sm evs
  | _ :: evs => textualRecords sm evs

/-- The semantic imports of the analysed file in a stream whose resolved
name, the last segment of the path, is not in the removal list, as records at
the import position, in encounter order. -/
def semanticRecords (sm : SourceManager) (o : Options) : List PPEvent → List SemanticImport
  | [] => []
  | PPEvent.moduleImport ImportLoc Path :: evs =>
    if sm.isInMainFile ImportLoc && !decide (Path.getLast?.getD "" ∈ o.RemoveImport) then
      SemanticImport.mk (Path.getLast?.getD "") ImportLoc :: semanticRecords sm o evs
    else semanticRecords sm o evs
  | _ :: evs => semanticRecords sm o evs

/-- The event is a directive of the analysed file that is recorded in a buffer. -/
def PPEvent.recorded (sm : SourceManager) (o : Options) : PPEvent → Bool
  | PPEvent.InclusionDirective HashLoc _ _ _ _ => sm.isInMainFile HashLoc
  | PPEvent.moduleImport ImportLoc Path =>
    sm.isInMainFile ImportLoc && !decide (Path.getLast?.getD "" ∈ o.RemoveImport)
  | PPEvent.FileNotFound _ => false

/-- The location an event reports: `HashLoc` or `ImportLoc`. -/
def PPEvent.location : PPEvent → SourceLocation
  | PPEvent.InclusionDirective HashLoc _ _ _ _ => HashLoc
  | PPEvent.moduleImport ImportLoc _ => ImportLoc
  | PPEvent.FileNotFound _ => SourceLocation.invalid

/-- The first location by events: the location of the first recorded directive
of the stream; before any is recorded, the location of the latest removed
semantic import, starting from `cur`. -/
def firstLocationOf (sm : SourceManager) (o : Options) :
    SourceLocation → List PPEvent → SourceLocation
  | cur, [] => cur
  | cur, e :: evs =>
    if e.recorded sm o then e.location
    else if e.removedByName sm o then firstLocationOf sm o e.location evs
    else firstLocationOf sm o cur evs

/-- The last location by events: the end of the latest directive of the
analysed file, recorded or removed, starting from `cur`: the end of the
file-name range for a textual import, the import position plus 8 plus the
length of the last path segment for a semantic import. -/
def lastLocationOf (sm : SourceManager) : SourceLocation → List PPEvent → SourceLocation
  | cur, [] => cur
  | cur, PPEvent.InclusionDirective HashLoc _ _ FilenameRange _ :: evs =>
    lastLocationOf sm (if sm.isInMainFile HashLoc then FilenameRange.End else cur) evs
  | cur, PPEvent.moduleImport ImportLoc Path :: evs =>
    lastLocationOf sm
      (if sm.isInMainFile ImportLoc then
        match Path.getLast? with
        | none => cur
        | some Info => ImportLoc.getLocWithOffset (SourceLocation.toIntTy (8 + Info.length))
      else cur) evs
  | cur, PPEvent.FileNotFound _ :: evs => lastLocationOf sm cur evs

/-- The positions an event carries are valid: the end of the file-name range
of a textual import, and the end computed for a semantic import, whose path is
not empty. -/
def PPEvent.validPositions : PPEvent → Bool
  | PPEvent.InclusionDirective _ _ _ FilenameRange _ => FilenameRange.End.isValid
  | PPEvent.moduleImport ImportLoc Path =>
    match Path.getLast? with
    | none => false
    | some Info =>
      (ImportLoc.getLocWithOffset (SourceLocation.toIntTy (8 + Info.length))).isValid
  | PPEvent.FileNotFound _ => true

/-! ## More scenarios -/

/-- A semantic import with a path of two segments. -/
def multiSegmentText : String := "@import a.b;\n"

/-- A violation with the same file included angled, then quoted. -/
def sameNameText : String := "@import z;\n#import <a.h>\n#import \"a.h\"\n"

/-- The events of `sameNameText`. -/
def sameNameEvents : List PPEvent :=
  [PPEvent.moduleImport (at_ 1) ["z"],
   PPEvent.InclusionDirective (at_ 11) "a.h" true ⟨at_ 19, at_ 24⟩ false,
   PPEvent.InclusionDirective (at_ 25) "a.h" false ⟨at_ 33, at_ 38⟩ false]

/-- A removed semantic import followed by a textual import. -/
def removedFirstText : String := "@import remove_me;\n#import \"a.h\"\n"

/-- The events of `removedFirstText`. -/
def removedFirstEvents : List PPEvent :=
  [PPEvent.moduleImport (at_ 1) ["remove_me"],
   PPEvent.InclusionDirective (at_ 19) "a.h" false ⟨at_ 27, at_ 32⟩ false]

/-- A textual import followed by a removed semantic import. -/
def removedLastText : String := "#import \"a.h\"\n@import remove_me;\n"

/-- The events of `removedLastText`. -/
def removedLastEvents : List PPEvent :=
  [PPEvent.InclusionDirective (at_ 0) "a.h" false ⟨at_ 8, at_ 13⟩ false,
   PPEvent.moduleImport (at_ 15) ["remove_me"]]

/-- A file of one semantic import and nothing else. -/
def semanticOnlyText : String := "@import z;\n"

/-- The event of `semanticOnlyText`. -/
def semanticOnlyEvents : List PPEvent :=
  [PPEvent.moduleImport (at_ 1) ["z"]]

/-- A violation in which the file `a.h` is included seventeen times, angled
on the second line and quoted on the sixteen lines after it. -/
def seventeenText : String :=
  "@import z;\n#import <a.h>\n" ++ String.join (List.replicate 16 "#import \"a.h\"\n")

/-- The events of `seventeenText`. -/
def seventeenEvents : List PPEvent :=
  PPEvent.moduleImport (at_ 1) ["z"] ::
  PPEvent.InclusionDirective (at_ 11) "a.h" true ⟨at_ 19, at_ 24⟩ false ::
  (List.range 16).map (fun k =>
    PPEvent.InclusionDirective (at_ (25 + 14 * k)) "a.h" false
      ⟨at_ (33 + 14 * k), at_ (38 + 14 * k)⟩ false)

/-! # Theorems -/

/-! ## The string comparison is a strict total order -/

theorem char_eq_of_toNat_eq (a b : Char) (h : a.toNat = b.toNat) : a = b := by
  apply Char.ext
  cases a with
  | mk va ha =>
    cases b with
    | mk vb hb =>
      simp only [Char.toNat] at h
      cases va with
      | mk fa =>
        cases vb with
        | mk fb =>
          simp only [UInt32.toNat] at h
          have hf : fa = fb := BitVec.eq_of_toNat_eq h
          subst hf
          rfl

theorem charsLess_irrefl (l : List Char) : charsLess l l = false := by
  induction l with
  | nil => rfl
  | cons a as ih => simp [charsLess, ih]

theorem charsLess_trans : ∀ (a b c : List Char),
    charsLess a b = true → charsLess b c = true → charsLess a c = true
  | _, [], _ => by simp [charsLess]
  | _, _ :: _, [] => by simp [charsLess]
  | [], _ :: _, _ :: _ => by simp [charsLess]
  | x :: xs, y :: ys, z :: zs => by
    intro h1 h2
    simp only [charsLess] at h1 h2 ⊢
    split_ifs at h1 h2 ⊢ <;> first
      | rfl
      | omega
      | exact charsLess_trans xs ys zs h1 h2

theorem charsLess_connex : ∀ (a b : List Char),
    charsLess a b = false → charsLess b a = false → a = b
  | [], [] => by simp
  | [], _ :: _ => by simp [charsLess]
  | _ :: _, [] => by simp [charsLess]
  | x :: xs, y :: ys => by
    intro h1 h2
    simp only [charsLess] at h1 h2
    split_ifs at h1 h2
    have hxy : x = y := char_eq_of_toNat_eq x y (by omega)
    rw [hxy, charsLess_connex xs ys h1 h2]

theorem stringLess_irrefl (a : String) : stringLess a a = false :=
  charsLess_irrefl a.data

theorem stringLess_trans (a b c : String) (h1 : stringLess a b = true)
    (h2 : stringLess b c = true) : stringLess a c = true :=
  charsLess_trans a.data b.data c.data h1 h2

theorem stringLess_connex (a b : String) (h1 : stringLess a b = false)
    (h2 : stringLess b a = false) : a = b :=
  String.ext (charsLess_connex a.data b.data h1 h2)

/-- A comparator that compares a string key with `operator<` is a strict weak ordering. -/
theorem strictWeakOrder_of_key {α : Type} (key : α → String) :
    StrictWeakOrder (fun a b : α => stringLess (key a) (key b)) where
  irrefl := fun a => stringLess_irrefl (key a)
  trans := fun a b c => stringLess_trans (key a) (key b) (key c)
  incomp_trans := by
    intro a b c h1 h2 h3 h4
    have hab : key a = key b := stringLess_connex _ _ h1 h2
    have hbc : key b = key c := stringLess_connex _ _ h3 h4
    simp only [hab, hbc, stringLess_irrefl, and_self]

/-! ## The handlers, field by field -/

theorem InclusionDirective_not_main (sm : SourceManager) (s : Callback)
    (HashLoc : SourceLocation) (FileName : String) (IsAngled : Bool)
    (FilenameRange : SourceRange) (Imported : Bool)
    (h : sm.isInMainFile HashLoc = false) :
    InclusionDirective sm s HashLoc FileName IsAngled FilenameRange Imported = s := by
  simp [InclusionDirective, h]

theorem InclusionDirective_main (sm : SourceManager) (s : Callback)
    (HashLoc : SourceLocation) (FileName : String) (IsAngled : Bool)
    (FilenameRange : SourceRange) (Imported : Bool)
    (h : sm.isInMainFile HashLoc = true) :
    InclusionDirective sm s HashLoc FileName IsAngled FilenameRange Imported =
      { Imports := s.Imports ++ [Import.mk FileName HashLoc IsAngled]
        SemanticImports := s.SemanticImports
        FirstLocation :=
          if s.Imports.isEmpty && s.SemanticImports.isEmpty then HashLoc else s.FirstLocation
        LastLocation := FilenameRange.End
        ShouldCorrectImports := s.ShouldCorrectImports || lineAfterFirstModule sm s HashLoc
        Rewriter := s.Rewriter
        DiagnosticEngine := s.DiagnosticEngine ++
          (if lineAfterFirstModule sm s HashLoc then
            [Report.mk HashLoc warningFormat]
          else [])
        outs := s.outs } := by
  cases s with
  | mk imps sems fl ll sc rw de o =>
    cases sems with
    | nil =>
      cases Imported <;> cases hI : imps.isEmpty <;>
        simp [InclusionDirective, h, lineAfterFirstModule, SourceRange.getEnd, hI]
    | cons m ms =>
      by_cases hl : getLineNumber sm HashLoc > getLineNumber sm m.HashLocation <;>
        cases Imported <;>
        simp [InclusionDirective, h, lineAfterFirstModule, SourceRange.getEnd, hl]

theorem pathLoop_eq (ImportLoc : SourceLocation) (token : String) :
    ∀ (Path : List String) (acc : String × SourceLocation),
      pathLoop ImportLoc token Path acc =
        match Path.getLast? with
        | none => acc
        | some Info =>
          (Info, ImportLoc.getLocWithOffset (SourceLocation.toIntTy (token.length + Info.length)))
  | [], _ => rfl
  | [_], _ => rfl
  | a :: b :: rest, acc => by
    rw [pathLoop, pathLoop_eq ImportLoc token (b :: rest), List.getLast?_cons_cons]
    rw [List.getLast?_eq_getLast (b :: rest) (List.cons_ne_nil b rest)]

/-- The end location `moduleImport` leaves in `LastLocation`: computed from the
last path segment alone, the old value staying for an empty path. -/
theorem pathLoop_snd (ImportLoc : SourceLocation) (Path : List String) (old : SourceLocation) :
    (pathLoop ImportLoc "import  " Path ("", old)).2 =
      match Path.getLast? with
      | none => old
      | some Info => ImportLoc.getLocWithOffset (SourceLocation.toIntTy (8 + Info.length)) := by
  rw [pathLoop_eq]
  cases Path.getLast? with
  | none => rfl
  | some Info => rfl

theorem pathLoop_fst (ImportLoc : SourceLocation) (Path : List String) (old : SourceLocation) :
    (pathLoop ImportLoc "import  " Path ("", old)).1 = Path.getLast?.getD "" := by
  rw [pathLoop_eq]
  cases Path.getLast? with
  | none => rfl
  | some Info => rfl

theorem removeTest_eq (R : List String) (name : String) :
    (!R.isEmpty && R.contains name) = decide (name ∈ R) := by
  cases R with
  | nil => simp
  | cons r rs => simp

theorem moduleImport_not_main (sm : SourceManager) (o : Options) (s : Callback)
    (ImportLoc : SourceLocation) (Path : List String)
    (h : sm.isInMainFile ImportLoc = false) :
    moduleImport sm o s ImportLoc Path = s := by
  simp [moduleImport, h]

theorem moduleImport_removed (sm : SourceManager) (o : Options) (s : Callback)
    (ImportLoc : SourceLocation) (Path : List String)
    (h : sm.isInMainFile ImportLoc = true)
    (hname : Path.getLast?.getD "" ∈ o.RemoveImport) :
    moduleImport sm o s ImportLoc Path =
      { s with
        FirstLocation :=
          if s.SemanticImports.isEmpty && s.Imports.isEmpty then ImportLoc else s.FirstLocation
        LastLocation := (pathLoop ImportLoc "import  " Path ("", s.LastLocation)).2
        Rewriter := s.Rewriter ++
          [RewriterCall.RemoveText
            (SourceRange.mk (ImportLoc.getLocWithOffset (-1))
              (pathLoop ImportLoc "import  " Path ("", s.LastLocation)).2)
            (RewriteOptions.mk true)] } := by
  have hne : o.RemoveImport ≠ [] := List.ne_nil_of_mem hname
  cases s with
  | mk imps sems fl ll sc rw de ou =>
    cases hE : (sems.isEmpty && imps.isEmpty) <;>
      simp [moduleImport, h, hE, pathLoop_fst, hname, hne]

theorem moduleImport_recorded (sm : SourceManager) (o : Options) (s : Callback)
    (ImportLoc : SourceLocation) (Path : List String)
    (h : sm.isInMainFile ImportLoc = true)
    (hname : Path.getLast?.getD "" ∉ o.RemoveImport) :
    moduleImport sm o s ImportLoc Path =
      { s with
        FirstLocation :=
          if s.SemanticImports.isEmpty && s.Imports.isEmpty then ImportLoc else s.FirstLocation
        LastLocation := (pathLoop ImportLoc "import  " Path ("", s.LastLocation)).2
        SemanticImports := s.SemanticImports ++
          [SemanticImport.mk (Path.getLast?.getD "") ImportLoc] } := by
  cases s with
  | mk imps sems fl ll sc rw de ou =>
    cases hE : (sems.isEmpty && imps.isEmpty) <;>
      simp [moduleImport, h, hE, removeTest_eq, pathLoop_fst, hname]

/-! ## C3: rendered forms -/

/-- C3, as stated, fails: the rendered form of a textual import does not
start with `#include`, whether the name is angled or quoted. -/
theorem to_string_not_include :
    (Import.mk "a.h" (at_ 0) true).to_string ≠ "#include <a.h>" ∧
    (Import.mk "a.h" (at_ 0) false).to_string ≠ "#include \"a.h\"" := by
  decide

/-- C3, amended: for every name a textual import renders as `#import <name>`
when angled and as `#import "name"` when quoted, and a semantic import renders
as `@import name;`. -/
theorem to_string_rendered (name : String) (loc : SourceLocation) :
    (Import.mk name loc true).to_string = "#import <" ++ name ++ ">" ∧
    (Import.mk name loc false).to_string = "#import \"" ++ name ++ "\"" ∧
    (SemanticImport.mk name loc).to_string = "@import " ++ name ++ ";" := by
  refine ⟨?_, ?_, ?_⟩
  · simp only [Import.to_string, ↓reduceIte]
    apply String.ext
    simp only [String.data_append, List.append_assoc]
    rfl
  · simp only [Import.to_string, Bool.false_eq_true, ↓reduceIte]
    apply String.ext
    simp only [String.data_append, List.append_assoc]
    rfl
  · simp only [SemanticImport.to_string, SemanticImport.token]
    apply String.ext
    simp only [String.data_append, List.append_assoc]
    rfl

/-! ## C6: sort correctness -/

/-- C6: after `SortImports`, whatever `std::sort` does with equal names, the
textual imports are a permutation of the textual imports before and no record
is followed by one with a smaller name, and the same holds for the semantic imports;
each sequence is permuted within itself, and nothing else changes. -/
theorem SortImports_sorted_perm (srt : StdSort) (s : Callback) :
    (SortImports srt s).Imports.Perm s.Imports ∧
    (SortImports srt s).Imports.Pairwise (fun a b => stringLess b.Name a.Name = false) ∧
    (SortImports srt s).SemanticImports.Perm s.SemanticImports ∧
    (SortImports srt s).SemanticImports.Pairwise
      (fun a b => stringLess b.Name a.Name = false) ∧
    (SortImports srt s).FirstLocation = s.FirstLocation ∧
    (SortImports srt s).LastLocation = s.LastLocation ∧
    (SortImports srt s).ShouldCorrectImports = s.ShouldCorrectImports ∧
    (SortImports srt s).Rewriter = s.Rewriter ∧
    (SortImports srt s).DiagnosticEngine = s.DiagnosticEngine :=
  ⟨srt.perm _ s.Imports,
   srt.sorted _ s.Imports (strictWeakOrder_of_key Import.Name),
   srt.perm _ s.SemanticImports,
   srt.sorted _ s.SemanticImports (strictWeakOrder_of_key SemanticImport.Name),
   rfl, rfl, rfl, rfl, rfl⟩

/-! ## C1: violation detection -/

/-- C1, as stated, fails: a textual import delivered while a semantic import is
buffered, but positioned on the line of that semantic import, neither sets the
flag nor reports a warning. -/
theorem InclusionDirective_same_line_silent :
    (mainFileSM sameLineText).isInMainFile (at_ 11) = true ∧
    sameLineState.SemanticImports = [SemanticImport.mk "z" (at_ 1)] ∧
    (InclusionDirective (mainFileSM sameLineText) sameLineState
      (at_ 11) "a.h" false ⟨at_ 19, at_ 24⟩ false).ShouldCorrectImports = false ∧
    (InclusionDirective (mainFileSM sameLineText) sameLineState
      (at_ 11) "a.h" false ⟨at_ 19, at_ 24⟩ false).DiagnosticEngine = [] := by
  decide

/-- C1, amended: a textual import of the analysed file delivered while
`SemanticImports` is non-empty and lying on a later line than the first
buffered semantic import leaves `ShouldCorrectImports` true and reports exactly
one warning, at the directive; one on the same or an earlier line, or
delivered while `SemanticImports` is empty, reports nothing and leaves the flag
as it was. -/
theorem InclusionDirective_violation (sm : SourceManager) (s : Callback)
    (HashLoc : SourceLocation) (FileName : String) (IsAngled : Bool)
    (FilenameRange : SourceRange) (Imported : Bool)
    (hmain : sm.isInMainFile HashLoc = true) :
    (∀ firstModule rest, s.SemanticImports = firstModule :: rest →
      getLineNumber sm HashLoc > getLineNumber sm firstModule.HashLocation →
      (InclusionDirective sm s HashLoc FileName IsAngled FilenameRange
        Imported).ShouldCorrectImports = true ∧
      (InclusionDirective sm s HashLoc FileName IsAngled FilenameRange
        Imported).DiagnosticEngine = s.DiagnosticEngine ++
          [Report.mk HashLoc warningFormat]) ∧
    (∀ firstModule rest, s.SemanticImports = firstModule :: rest →
      getLineNumber sm HashLoc ≤ getLineNumber sm firstModule.HashLocation →
      (InclusionDirective sm s HashLoc FileName IsAngled FilenameRange
        Imported).ShouldCorrectImports = s.ShouldCorrectImports ∧
      (InclusionDirective sm s HashLoc FileName IsAngled FilenameRange
        Imported).DiagnosticEngine = s.DiagnosticEngine) ∧
    (s.SemanticImports = [] →
      (InclusionDirective sm s HashLoc FileName IsAngled FilenameRange
        Imported).ShouldCorrectImports = s.ShouldCorrectImports ∧
      (InclusionDirective sm s HashLoc FileName IsAngled FilenameRange
        Imported).DiagnosticEngine = s.DiagnosticEngine) := by
  rw [InclusionDirective_main sm s HashLoc FileName IsAngled FilenameRange Imported hmain]
  refine ⟨?_, ?_, ?_⟩
  · intro firstModule rest hs hl
    simp [lineAfterFirstModule, hs, hl]
  · intro firstModule rest hs hl
    simp [lineAfterFirstModule, hs, Nat.not_lt.2 hl]
  · intro hs
    simp [lineAfterFirstModule, hs]

/-- Witness of C1: in `violationText` the import of `b.h`, on line 2, comes
after the semantic import of line 1; it sets the flag and is reported once. -/
theorem InclusionDirective_violation_witness :
    (mainFileSM violationText).isInMainFile (at_ 11) = true ∧
    (InclusionDirective (mainFileSM violationText)
        (deliver (mainFileSM violationText) ⟨false, false, []⟩ (construct false)
          [PPEvent.moduleImport (at_ 1) ["z"]])
        (at_ 11) "b.h" false ⟨at_ 19, at_ 24⟩ false).ShouldCorrectImports = true ∧
    (InclusionDirective (mainFileSM violationText)
        (deliver (mainFileSM violationText) ⟨false, false, []⟩ (construct false)
          [PPEvent.moduleImport (at_ 1) ["z"]])
        (at_ 11) "b.h" false ⟨at_ 19, at_ 24⟩ false).DiagnosticEngine =
      [Report.mk (at_ 11) warningFormat] :=
  ⟨by decide,
   (InclusionDirective_violation (mainFileSM violationText)
      (deliver (mainFileSM violationText) ⟨false, false, []⟩ (construct false)
        [PPEvent.moduleImport (at_ 1) ["z"]])
      (at_ 11) "b.h" false ⟨at_ 19, at_ 24⟩ false (by decide)).1
      (SemanticImport.mk "z" (at_ 1)) [] (by decide) (by decide)⟩

/-! ## Streams of events -/

theorem deliver_nil (sm : SourceManager) (o : Options) (s : Callback) :
    deliver sm o s [] = s := rfl

theorem deliver_cons (sm : SourceManager) (o : Options) (s : Callback) (e : PPEvent)
    (evs : List PPEvent) :
    deliver sm o s (e :: evs) = deliver sm o (dispatch sm o s e) evs := rfl

theorem deliver_append (sm : SourceManager) (o : Options) (s : Callback)
    (xs ys : List PPEvent) :
    deliver sm o s (xs ++ ys) = deliver sm o (deliver sm o s xs) ys := by
  simp only [deliver, List.foldl_append]

/-- The handlers read `RemoveImport` only: the two boolean options play no part
before the end of the file. -/
theorem deliver_options (sm : SourceManager) (a b a' b' : Bool) (R : List String)
    (evs : List PPEvent) : ∀ (s : Callback),
    deliver sm ⟨a, b, R⟩ s evs = deliver sm ⟨a', b', R⟩ s evs := by
  induction evs with
  | nil => intro s; rfl
  | cons e evs ih =>
    intro s
    rw [deliver_cons, deliver_cons, ih]
    cases e <;> rfl

/-- What one event adds to the calls on the rewriter. -/
theorem dispatch_Rewriter (sm : SourceManager) (o : Options) (s : Callback) (e : PPEvent) :
    (dispatch sm o s e).Rewriter = s.Rewriter ∨
    (e.removedByName sm o = true ∧ ∃ c, (dispatch sm o s e).Rewriter = s.Rewriter ++ [c]) := by
  cases e with
  | InclusionDirective h f a r i =>
    left
    cases hm : sm.isInMainFile h with
    | false => simp only [dispatch, InclusionDirective_not_main sm s h f a r i hm]
    | true => simp only [dispatch, InclusionDirective_main sm s h f a r i hm]
  | moduleImport l p =>
    cases hm : sm.isInMainFile l with
    | false =>
      left
      simp only [dispatch, moduleImport_not_main sm o s l p hm]
    | true =>
      by_cases hn : p.getLast?.getD "" ∈ o.RemoveImport
      · right
        refine ⟨by simp [PPEvent.removedByName, hm, hn], ?_⟩
        simp only [dispatch, moduleImport_removed sm o s l p hm hn]
        exact ⟨_, rfl⟩
      · left
        simp only [dispatch, moduleImport_recorded sm o s l p hm hn]
  | FileNotFound f =>
    left
    rfl

/-- With an empty removal list the handlers make no call on the rewriter. -/
theorem deliver_Rewriter_of_no_removal (sm : SourceManager) (a b : Bool)
    (evs : List PPEvent) : ∀ (s : Callback),
    (deliver sm ⟨a, b, []⟩ s evs).Rewriter = s.Rewriter := by
  induction evs with
  | nil => intro s; rfl
  | cons e evs ih =>
    intro s
    rw [deliver_cons, ih]
    rcases dispatch_Rewriter sm ⟨a, b, []⟩ s e with h | ⟨h, _⟩
    · exact h
    · cases e <;> simp [PPEvent.removedByName] at h

/-- With both options off, `EndOfMainFile` changes nothing but what is printed. -/
theorem EndOfMainFile_options_off (sm : SourceManager) (srt : StdSort) (R : List String)
    (s : Callback) :
    (EndOfMainFile sm srt ⟨false, false, R⟩ s).Rewriter = s.Rewriter ∧
    (EndOfMainFile sm srt ⟨false, false, R⟩ s).DiagnosticEngine = s.DiagnosticEngine ∧
    (EndOfMainFile sm srt ⟨false, false, R⟩ s).Imports = s.Imports ∧
    (EndOfMainFile sm srt ⟨false, false, R⟩ s).SemanticImports = s.SemanticImports := by
  unfold EndOfMainFile
  split
  · simp
  · split <;> simp

/-- Without the flag, `EndOfMainFile` changes nothing but what is printed. -/
theorem EndOfMainFile_not_flagged (sm : SourceManager) (srt : StdSort) (o : Options)
    (s : Callback) (h : s.ShouldCorrectImports = false) :
    (EndOfMainFile sm srt o s).Rewriter = s.Rewriter ∧
    (EndOfMainFile sm srt o s).DiagnosticEngine = s.DiagnosticEngine ∧
    (EndOfMainFile sm srt o s).Imports = s.Imports ∧
    (EndOfMainFile sm srt o s).SemanticImports = s.SemanticImports := by
  unfold EndOfMainFile
  simp only [h, Bool.false_and, Bool.false_eq_true, ↓reduceIte]
  split <;> simp

/-! ## C8: both options off -/

/-- C8 (Scenario E): with `order = false` and `moveImportOrder = false`, for
every event stream `EndOfMainFile` makes no call on the rewriter and leaves the
warnings reported at intake as they are; those warnings are the ones any
setting of the two options reports; with an empty removal list the whole run
makes no call on the rewriter; and in `violationText` both late textual imports
are still reported. -/
theorem options_off_no_rewrite (sm : SourceManager) (srt : StdSort) (R : List String)
    (garbage : Bool) (evs : List PPEvent) :
    (EndOfMainFile sm srt ⟨false, false, R⟩
      (deliver sm ⟨false, false, R⟩ (construct garbage) evs)).Rewriter =
      (deliver sm ⟨false, false, R⟩ (construct garbage) evs).Rewriter ∧
    (runFile sm srt ⟨false, false, R⟩ garbage evs).DiagnosticEngine =
      (deliver sm ⟨false, false, R⟩ (construct garbage) evs).DiagnosticEngine ∧
    (∀ a b : Bool, (deliver sm ⟨a, b, R⟩ (construct garbage) evs).DiagnosticEngine =
      (deliver sm ⟨false, false, R⟩ (construct garbage) evs).DiagnosticEngine) ∧
    (runFile sm srt ⟨false, false, []⟩ garbage evs).Rewriter = [] ∧
    (runFile (mainFileSM violationText) srt ⟨false, false, []⟩ garbage
      violationEvents).DiagnosticEngine =
      [Report.mk (at_ 11) warningFormat, Report.mk (at_ 25) warningFormat] := by
  refine ⟨(EndOfMainFile_options_off sm srt R _).1, (EndOfMainFile_options_off sm srt R _).2.1,
    ?_, ?_, ?_⟩
  · intro a b
    rw [deliver_options sm a b false false R evs]
  · unfold runFile
    rw [(EndOfMainFile_options_off sm srt [] _).1, deliver_Rewriter_of_no_removal]
    rfl
  · unfold runFile
    rw [(EndOfMainFile_options_off _ srt [] _).2.1]
    cases garbage <;> decide

/-! ## C9: the boundary invariant -/

theorem isValid_iff (l : SourceLocation) : l.isValid = true ↔ l.ID ≠ 0 := by
  simp [SourceLocation.isValid]

theorem isValid_of_inMainFile (sm : SourceManager) (l : SourceLocation)
    (h : sm.isInMainFile l = true) : l.isValid = true :=
  (isValid_iff l).2 (Nat.pos_iff_ne_zero.1 (sm.inMainFile_fileLoc l h).1)

/-- One event keeps the boundary invariant, `removed` recording whether a
semantic import has been removed by name so far. -/
theorem dispatch_FirstLocation_inv (sm : SourceManager) (o : Options) (s : Callback)
    (e : PPEvent) (removed : Prop)
    (h : s.FirstLocation.isValid = true ↔
      (s.Imports ≠ [] ∨ s.SemanticImports ≠ [] ∨ removed)) :
    (dispatch sm o s e).FirstLocation.isValid = true ↔
      ((dispatch sm o s e).Imports ≠ [] ∨ (dispatch sm o s e).SemanticImports ≠ [] ∨
        (removed ∨ e.removedByName sm o = true)) := by
  cases e with
  | InclusionDirective l f a r i =>
    cases hm : sm.isInMainFile l with
    | false =>
      simp only [dispatch, InclusionDirective_not_main sm s l f a r i hm,
        PPEvent.removedByName, Bool.false_eq_true, or_false]
      exact h
    | true =>
      simp only [dispatch, InclusionDirective_main sm s l f a r i hm]
      have hv := isValid_of_inMainFile sm l hm
      constructor
      · intro _
        left
        simp
      · intro _
        cases hI : s.Imports with
        | nil =>
          cases hS : s.SemanticImports with
          | nil => simpa using hv
          | cons m ms =>
            have : s.FirstLocation.isValid = true := h.2 (Or.inr (Or.inl (by simp [hS])))
            simpa using this
        | cons m ms =>
          have : s.FirstLocation.isValid = true := h.2 (Or.inl (by simp [hI]))
          simpa using this
  | moduleImport l p =>
    cases hm : sm.isInMainFile l with
    | false =>
      simp only [dispatch, moduleImport_not_main sm o s l p hm, PPEvent.removedByName, hm,
        Bool.false_and, Bool.false_eq_true, or_false]
      exact h
    | true =>
      have hv := isValid_of_inMainFile sm l hm
      have hfirst : (if s.SemanticImports.isEmpty && s.Imports.isEmpty then l
          else s.FirstLocation).isValid = true := by
        cases hS : s.SemanticImports with
        | nil =>
          cases hI : s.Imports with
          | nil => simpa using hv
          | cons m ms =>
            have : s.FirstLocation.isValid = true := h.2 (Or.inl (by simp [hI]))
            simpa using this
        | cons m ms =>
          have : s.FirstLocation.isValid = true := h.2 (Or.inr (Or.inl (by simp [hS])))
          simpa using this
      by_cases hn : p.getLast?.getD "" ∈ o.RemoveImport
      · simp only [dispatch, moduleImport_removed sm o s l p hm hn]
        constructor
        · intro _
          right; right; right
          simp [PPEvent.removedByName, hm, hn]
        · intro _
          exact hfirst
      · simp only [dispatch, moduleImport_recorded sm o s l p hm hn]
        constructor
        · intro _
          right; left
          simp
        · intro _
          exact hfirst
  | FileNotFound f =>
    simp only [dispatch, FileNotFound, PPEvent.removedByName, Bool.false_eq_true, or_false]
    exact h

theorem deliver_FirstLocation_inv (sm : SourceManager) (o : Options) (evs : List PPEvent) :
    ∀ (s : Callback) (removed : Prop),
    (s.FirstLocation.isValid = true ↔
      (s.Imports ≠ [] ∨ s.SemanticImports ≠ [] ∨ removed)) →
    ((deliver sm o s evs).FirstLocation.isValid = true ↔
      ((deliver sm o s evs).Imports ≠ [] ∨ (deliver sm o s evs).SemanticImports ≠ [] ∨
        (removed ∨ ∃ e ∈ evs, e.removedByName sm o = true))) := by
  induction evs with
  | nil =>
    intro s removed h
    simpa using h
  | cons e evs ih =>
    intro s removed h
    rw [deliver_cons]
    have h1 := ih (dispatch sm o s e) (removed ∨ e.removedByName sm o = true)
      (dispatch_FirstLocation_inv sm o s e removed h)
    rw [h1]
    simp only [List.mem_cons, exists_eq_or_imp, or_assoc]

/-- C9: for every event stream, when `EndOfMainFile` is reached `FirstLocation`
is valid if and only if `Imports` is non-empty, or `SemanticImports` is
non-empty, or some semantic import of the stream was removed by name. -/
theorem FirstLocation_valid_iff (sm : SourceManager) (o : Options) (garbage : Bool)
    (evs : List PPEvent) :
    (deliver sm o (construct garbage) evs).FirstLocation.isValid = true ↔
      ((deliver sm o (construct garbage) evs).Imports ≠ [] ∨
       (deliver sm o (construct garbage) evs).SemanticImports ≠ [] ∨
       ∃ e ∈ evs, e.removedByName sm o = true) := by
  have h := deliver_FirstLocation_inv sm o evs (construct garbage) False
    (by simp [construct, SourceLocation.invalid, SourceLocation.isValid])
  simpa using h

/-! ## C7: removal by name -/

/-- One event appends to `SemanticImports` at most a record whose name is not
in the removal list. -/
theorem dispatch_SemanticImports (sm : SourceManager) (o : Options) (s : Callback)
    (e : PPEvent) :
    (dispatch sm o s e).SemanticImports = s.SemanticImports ∨
    ∃ m, m.Name ∉ o.RemoveImport ∧
      (dispatch sm o s e).SemanticImports = s.SemanticImports ++ [m] := by
  cases e with
  | InclusionDirective l f a r i =>
    left
    cases hm : sm.isInMainFile l with
    | false => simp only [dispatch, InclusionDirective_not_main sm s l f a r i hm]
    | true => simp only [dispatch, InclusionDirective_main sm s l f a r i hm]
  | moduleImport l p =>
    cases hm : sm.isInMainFile l with
    | false =>
      left
      simp only [dispatch, moduleImport_not_main sm o s l p hm]
    | true =>
      by_cases hn : p.getLast?.getD "" ∈ o.RemoveImport
      · left
        simp only [dispatch, moduleImport_removed sm o s l p hm hn]
      · right
        refine ⟨SemanticImport.mk (p.getLast?.getD "") l, hn, ?_⟩
        simp only [dispatch, moduleImport_recorded sm o s l p hm hn]
  | FileNotFound f =>
    left
    rfl

theorem deliver_SemanticImports_not_removed (sm : SourceManager) (o : Options)
    (evs : List PPEvent) : ∀ (s : Callback),
    (∀ m ∈ s.SemanticImports, m.Name ∉ o.RemoveImport) →
    ∀ m ∈ (deliver sm o s evs).SemanticImports, m.Name ∉ o.RemoveImport := by
  induction evs with
  | nil => intro s h; exact h
  | cons e evs ih =>
    intro s h
    rw [deliver_cons]
    apply ih
    rcases dispatch_SemanticImports sm o s e with h1 | ⟨m1, hm1, h1⟩
    · rw [h1]
      exact h
    · rw [h1]
      intro m hm
      rcases List.mem_append.1 hm with h2 | h2
      · exact h m h2
      · rw [List.mem_singleton.1 h2]
        exact hm1

/-- What one event does to the two buffers, the flag and the warnings depends
on those four members alone. -/
theorem dispatch_agree (sm : SourceManager) (o : Options) (s t : Callback) (e : PPEvent)
    (h : s.Imports = t.Imports ∧ s.SemanticImports = t.SemanticImports ∧
      s.ShouldCorrectImports = t.ShouldCorrectImports ∧
      s.DiagnosticEngine = t.DiagnosticEngine) :
    (dispatch sm o s e).Imports = (dispatch sm o t e).Imports ∧
    (dispatch sm o s e).SemanticImports = (dispatch sm o t e).SemanticImports ∧
    (dispatch sm o s e).ShouldCorrectImports = (dispatch sm o t e).ShouldCorrectImports ∧
    (dispatch sm o s e).DiagnosticEngine = (dispatch sm o t e).DiagnosticEngine := by
  obtain ⟨h1, h2, h3, h4⟩ := h
  cases e with
  | InclusionDirective l f a r i =>
    cases hm : sm.isInMainFile l with
    | false =>
      simp only [dispatch, InclusionDirective_not_main sm _ l f a r i hm]
      exact ⟨h1, h2, h3, h4⟩
    | true =>
      have hl : lineAfterFirstModule sm s l = lineAfterFirstModule sm t l := by
        simp only [lineAfterFirstModule, h2]
      simp only [dispatch, InclusionDirective_main sm _ l f a r i hm, h1, h2, h3, h4, hl,
        and_self]
  | moduleImport l p =>
    cases hm : sm.isInMainFile l with
    | false =>
      simp only [dispatch, moduleImport_not_main sm o _ l p hm]
      exact ⟨h1, h2, h3, h4⟩
    | true =>
      by_cases hn : p.getLast?.getD "" ∈ o.RemoveImport
      · simp only [dispatch, moduleImport_removed sm o _ l p hm hn]
        exact ⟨h1, h2, h3, h4⟩
      · simp only [dispatch, moduleImport_recorded sm o _ l p hm hn, h2]
        exact ⟨h1, trivial, h3, h4⟩
  | FileNotFound f =>
    exact ⟨h1, h2, h3, h4⟩

theorem deliver_agree (sm : SourceManager) (o : Options) (evs : List PPEvent) :
    ∀ (s t : Callback),
    (s.Imports = t.Imports ∧ s.SemanticImports = t.SemanticImports ∧
      s.ShouldCorrectImports = t.ShouldCorrectImports ∧
      s.DiagnosticEngine = t.DiagnosticEngine) →
    ((deliver sm o s evs).Imports = (deliver sm o t evs).Imports ∧
    (deliver sm o s evs).SemanticImports = (deliver sm o t evs).SemanticImports ∧
    (deliver sm o s evs).ShouldCorrectImports = (deliver sm o t evs).ShouldCorrectImports ∧
    (deliver sm o s evs).DiagnosticEngine = (deliver sm o t evs).DiagnosticEngine) := by
  induction evs with
  | nil => intro s t h; exact h
  | cons e evs ih =>
    intro s t h
    rw [deliver_cons, deliver_cons]
    exact ih _ _ (dispatch_agree sm o s t e h)

theorem getLocWithOffset_neg_one (l : SourceLocation) (h0 : 0 < l.ID) (h1 : l.ID < 2 ^ 31) :
    (l.getLocWithOffset (-1)).ID + 1 = l.ID := by
  simp only [SourceLocation.getLocWithOffset]
  have h2 : ((l.ID : Int) + -1) % 2 ^ 32 = (l.ID : Int) - 1 := by
    apply Int.emod_eq_of_lt <;> omega
  rw [h2]
  omega

/-- C7: a semantic import of the analysed file whose resolved name (the last
segment of its path) is in the removal list appends no record, leaves
`Imports`, `SemanticImports`, `ShouldCorrectImports` and the warnings as they
were, and makes exactly one call on the rewriter, a `RemoveText` from one
character before the import location to the end location the handler has just
computed, with `RemoveLineIfEmpty` set. Consequently no record buffered in any
reachable state, before or after `EndOfMainFile`, bears a name of the removal
list, and the events delivered after a removed import set the flag and report
warnings exactly as they would had the removed import not been there. -/
theorem moduleImport_removal (sm : SourceManager) (srt : StdSort) (o : Options)
    (s : Callback) (ImportLoc : SourceLocation) (Path : List String)
    (hmain : sm.isInMainFile ImportLoc = true)
    (hname : Path.getLast?.getD "" ∈ o.RemoveImport) :
    (moduleImport sm o s ImportLoc Path).Imports = s.Imports ∧
    (moduleImport sm o s ImportLoc Path).SemanticImports = s.SemanticImports ∧
    (moduleImport sm o s ImportLoc Path).ShouldCorrectImports = s.ShouldCorrectImports ∧
    (moduleImport sm o s ImportLoc Path).DiagnosticEngine = s.DiagnosticEngine ∧
    (moduleImport sm o s ImportLoc Path).Rewriter = s.Rewriter ++
      [RewriterCall.RemoveText
        (SourceRange.mk (ImportLoc.getLocWithOffset (-1))
          (moduleImport sm o s ImportLoc Path).LastLocation)
        (RewriteOptions.mk true)] ∧
    (ImportLoc.getLocWithOffset (-1)).ID + 1 = ImportLoc.ID ∧
    (∀ Info, Path.getLast? = some Info →
      (moduleImport sm o s ImportLoc Path).LastLocation =
        ImportLoc.getLocWithOffset (SourceLocation.toIntTy (8 + Info.length))) ∧
    (∀ (garbage : Bool) (evs : List PPEvent),
      (∀ m ∈ (deliver sm o (construct garbage) evs).SemanticImports,
        m.Name ∉ o.RemoveImport) ∧
      (∀ m ∈ (runFile sm srt o garbage evs).SemanticImports, m.Name ∉ o.RemoveImport)) ∧
    (∀ evs : List PPEvent,
      (deliver sm o (moduleImport sm o s ImportLoc Path) evs).ShouldCorrectImports =
        (deliver sm o s evs).ShouldCorrectImports ∧
      (deliver sm o (moduleImport sm o s ImportLoc Path) evs).DiagnosticEngine =
        (deliver sm o s evs).DiagnosticEngine) := by
  have hrem := moduleImport_removed sm o s ImportLoc Path hmain hname
  have hinv : ∀ (garbage : Bool) (evs : List PPEvent),
      ∀ m ∈ (deliver sm o (construct garbage) evs).SemanticImports,
        m.Name ∉ o.RemoveImport := by
    intro garbage evs
    apply deliver_SemanticImports_not_removed
    intro m hm
    simp [construct] at hm
  refine ⟨by rw [hrem], by rw [hrem], by rw [hrem], by rw [hrem], by rw [hrem], ?_, ?_, ?_, ?_⟩
  · exact getLocWithOffset_neg_one ImportLoc (sm.inMainFile_fileLoc _ hmain).1
      (sm.inMainFile_fileLoc _ hmain).2
  · intro Info hInfo
    rw [hrem]
    simp only [pathLoop_snd, hInfo]
  · intro garbage evs
    refine ⟨hinv garbage evs, ?_⟩
    intro m hm
    have hsub : ∀ x ∈ (runFile sm srt o garbage evs).SemanticImports,
        x ∈ (deliver sm o (construct garbage) evs).SemanticImports := by
      intro x hx
      unfold runFile EndOfMainFile at hx
      split at hx
      · cases hO : o.OrderOption <;> cases hM : o.MoveImportOrder <;>
          simp only [hO, hM, Bool.false_eq_true, ↓reduceIte, MoveImports, SortImports] at hx
        · exact hx
        · exact hx
        · exact (srt.perm _ _).mem_iff.1 hx
        · exact (srt.perm _ _).mem_iff.1 hx
      · split at hx <;> exact hx
    exact hinv garbage evs m (hsub m hm)
  · intro evs
    have h := deliver_agree sm o evs (moduleImport sm o s ImportLoc Path) s
      ⟨by rw [hrem], by rw [hrem], by rw [hrem], by rw [hrem]⟩
    exact ⟨h.2.2.1, h.2.2.2⟩

/-- Witness of C7 (Scenario C): `@import remove_me;` with `remove_me` in the
removal list is deleted from the `@` to the `;` and leaves no record. -/
theorem moduleImport_removal_witness :
    (mainFileSM removalText).isInMainFile (at_ 1) = true ∧
    ["remove_me"].getLast?.getD "" ∈ ["remove_me"] ∧
    (moduleImport (mainFileSM removalText) ⟨true, true, ["remove_me"]⟩ (construct false)
      (at_ 1) ["remove_me"]).SemanticImports = [] ∧
    (moduleImport (mainFileSM removalText) ⟨true, true, ["remove_me"]⟩ (construct false)
      (at_ 1) ["remove_me"]).Rewriter =
      [RewriterCall.RemoveText (SourceRange.mk (at_ 0) (at_ 18)) (RewriteOptions.mk true)] :=
  ⟨by decide, by decide,
   (moduleImport_removal (mainFileSM removalText) insertionStdSort
      ⟨true, true, ["remove_me"]⟩ (construct false) (at_ 1) ["remove_me"]
      (by decide) (by decide)).2.1,
   by decide⟩

/-! ## C10: the start of the rewritten range -/

/-- C10 fails on the code: `FirstLocationOffset` tests the offset of
`FirstLocation` in the file, not its line. In `indentedText` the first
directive is on line 1 at offset 2 and the range starts one character before
it; in `secondLineText` the first directive is on line 2 at offset 1 and the
range starts at the directive itself. In both the range ends at `LastLocation`. -/
theorem MoveRange_tests_offset :
    (deliver (mainFileSM indentedText) ⟨false, true, []⟩ (construct false)
      indentedEvents).FirstLocation = at_ 2 ∧
    getLineNumber (mainFileSM indentedText) (at_ 2) = 1 ∧
    (runFile (mainFileSM indentedText) insertionStdSort ⟨false, true, []⟩ false
      indentedEvents).Rewriter =
      [RewriterCall.RemoveText (SourceRange.mk (at_ 1) (at_ 25)) RewriteOptions.default,
       RewriterCall.ReplaceText (SourceRange.mk (at_ 1) (at_ 25))
        "#import \"a.h\"\n\n@import z;"] ∧
    (deliver (mainFileSM secondLineText) ⟨false, true, []⟩ (construct false)
      secondLineEvents).FirstLocation = at_ 1 ∧
    getLineNumber (mainFileSM secondLineText) (at_ 1) = 2 ∧
    (runFile (mainFileSM secondLineText) insertionStdSort ⟨false, true, []⟩ false
      secondLineEvents).Rewriter =
      [RewriterCall.RemoveText (SourceRange.mk (at_ 1) (at_ 39)) RewriteOptions.default,
       RewriterCall.ReplaceText (SourceRange.mk (at_ 1) (at_ 39))
        "#import <x.h>\n#import <y.h>\n\n@import z;"] := by
  decide

/-! ## C4: no violation, no rewrite -/

/-- C4 fails on the code: the constructor leaves `ShouldCorrectImports`
uninitialised, and when the member happens to hold `true` a file of one textual import,
with no violation and no warning, is rewritten by `EndOfMainFile`;
when it holds `false` the same run makes no call on the rewriter. -/
theorem uninitialised_flag_rewrites :
    (construct true).ShouldCorrectImports = true ∧
    (runFile (mainFileSM textualOnlyText) insertionStdSort ⟨false, true, []⟩ true
      textualOnlyEvents).DiagnosticEngine = [] ∧
    (runFile (mainFileSM textualOnlyText) insertionStdSort ⟨false, true, []⟩ true
      textualOnlyEvents).Rewriter =
      [RewriterCall.RemoveText (SourceRange.mk (at_ 0) (at_ 13)) RewriteOptions.default,
       RewriterCall.ReplaceText (SourceRange.mk (at_ 0) (at_ 13)) "#import \"a.h\"\n"] ∧
    (runFile (mainFileSM textualOnlyText) insertionStdSort ⟨false, true, []⟩ false
      textualOnlyEvents).Rewriter = [] := by
  decide

/-- One event of a stream without a textual import after a recorded semantic import
leaves the flag and the warnings alone. -/
theorem deliver_no_violation (sm : SourceManager) (o : Options) (evs : List PPEvent) :
    ∀ (s : Callback) (seen : Bool), (s.SemanticImports ≠ [] → seen = true) →
    noTextualAfterSemantic sm o seen evs = true →
    (deliver sm o s evs).ShouldCorrectImports = s.ShouldCorrectImports ∧
    (deliver sm o s evs).DiagnosticEngine = s.DiagnosticEngine := by
  induction evs with
  | nil => intro s seen _ _; exact ⟨rfl, rfl⟩
  | cons e evs ih =>
    intro s seen hseen hno
    rw [deliver_cons]
    cases e with
    | InclusionDirective l f a r i =>
      simp only [noTextualAfterSemantic, Bool.and_eq_true, Bool.not_eq_true',
        Bool.and_eq_false_imp] at hno
      cases hm : sm.isInMainFile l with
      | false =>
        simp only [dispatch, InclusionDirective_not_main sm s l f a r i hm]
        exact ih s seen hseen hno.2
      | true =>
        have hS : s.SemanticImports = [] := by
          by_contra hne
          have h1 := hno.1 (hseen hne)
          rw [hm] at h1
          cases h1
        have hline : lineAfterFirstModule sm s l = false := by
          simp only [lineAfterFirstModule, hS]
        have h2 := ih (dispatch sm o s (PPEvent.InclusionDirective l f a r i)) seen
          (by
            intro hne
            simp only [dispatch, InclusionDirective_main sm s l f a r i hm] at hne
            exact hseen hne)
          hno.2
        rw [h2.1, h2.2]
        simp only [dispatch, InclusionDirective_main sm s l f a r i hm, hline,
          Bool.or_false, Bool.false_eq_true, ↓reduceIte, List.append_nil, and_self]
    | moduleImport l p =>
      simp only [noTextualAfterSemantic] at hno
      have h2 := ih (dispatch sm o s (PPEvent.moduleImport l p)) _
        (by
          intro hne
          cases hm : sm.isInMainFile l with
          | false =>
            simp only [dispatch, moduleImport_not_main sm o s l p hm] at hne
            simp [hseen hne]
          | true =>
            by_cases hn : p.getLast?.getD "" ∈ o.RemoveImport
            · simp only [dispatch, moduleImport_removed sm o s l p hm hn] at hne
              simp [hseen hne]
            · simp [hn])
        hno
      rw [h2.1, h2.2]
      cases hm : sm.isInMainFile l with
      | false =>
        simp only [dispatch, moduleImport_not_main sm o s l p hm, and_self]
      | true =>
        by_cases hn : p.getLast?.getD "" ∈ o.RemoveImport
        · simp only [dispatch, moduleImport_removed sm o s l p hm hn, and_self]
        · simp only [dispatch, moduleImport_recorded sm o s l p hm hn, and_self]
    | FileNotFound f =>
      simp only [noTextualAfterSemantic] at hno
      have h2 := ih (dispatch sm o s (PPEvent.FileNotFound f)) seen hseen hno
      rw [h2.1, h2.2]
      exact ⟨rfl, rfl⟩

/-- From a callback whose flag is clear, a stream without a textual import
after a recorded semantic import reports no warning and ends with no call of
`EndOfMainFile` on the rewriter, whatever the options. -/
theorem no_violation_no_rewrite (sm : SourceManager) (srt : StdSort) (o : Options)
    (evs : List PPEvent) (hno : noTextualAfterSemantic sm o false evs = true) :
    (deliver sm o (construct false) evs).ShouldCorrectImports = false ∧
    (runFile sm srt o false evs).DiagnosticEngine = [] ∧
    (runFile sm srt o false evs).Rewriter =
      (deliver sm o (construct false) evs).Rewriter := by
  have h := deliver_no_violation sm o evs (construct false) false
    (by intro hne; exact absurd rfl hne) hno
  have hf : (deliver sm o (construct false) evs).ShouldCorrectImports = false := h.1
  have he := EndOfMainFile_not_flagged sm srt o _ hf
  refine ⟨hf, ?_, he.1⟩
  unfold runFile
  rw [he.2.1, h.2]
  rfl

/-! ## C2: Scenario A -/

theorem StdSort.sort_singleton (srt : StdSort) {α : Type} (comp : α → α → Bool) (x : α) :
    srt.sort comp [x] = [x] :=
  List.perm_singleton.1 (srt.perm comp [x])

/-- Two elements out of order are put in order by any `std::sort`. -/
theorem StdSort.sort_pair (srt : StdSort) {α : Type} (comp : α → α → Bool)
    (hswo : StrictWeakOrder comp) (a b : α) (hab : comp a b = true) :
    srt.sort comp [b, a] = [a, b] := by
  have hp := srt.perm comp [b, a]
  have hs := srt.sorted comp [b, a] hswo
  have hne : a ≠ b := by
    intro h
    rw [h, hswo.irrefl] at hab
    cases hab
  generalize srt.sort comp [b, a] = l at hp hs
  have hlen := hp.length_eq
  match l, hp, hs, hlen with
  | [x, y], hp, hs, _ =>
    have hx : x ∈ [b, a] := hp.subset (List.mem_cons_self _ _)
    have ha : a ∈ [x, y] := hp.symm.subset (by simp)
    have hb : b ∈ [x, y] := hp.symm.subset (by simp)
    have hyx : comp y x = false := (List.pairwise_cons.1 hs).1 y (by simp)
    simp only [List.mem_cons, List.mem_singleton, List.not_mem_nil, or_false] at hx ha hb
    rcases hx with hx | hx
    · rcases ha with ha | ha
      · exact absurd (ha.trans hx) hne
      · rw [hx, ← ha, hab] at hyx
        cases hyx
    · rcases hb with hb | hb
      · exact absurd (hx.symm.trans hb.symm) hne
      · rw [hx, ← hb]

theorem noTextualAfterSemantic_of_semantic (sm : SourceManager) (o : Options)
    (ss : List PPEvent) (hss : ∀ e ∈ ss, e.isModuleImport = true) :
    ∀ seen : Bool, noTextualAfterSemantic sm o seen ss = true := by
  induction ss with
  | nil => intro seen; rfl
  | cons e ss ih =>
    intro seen
    have he := hss e (List.mem_cons_self _ _)
    have ih1 := ih (fun x hx => hss x (List.mem_cons_of_mem _ hx))
    cases e with
    | InclusionDirective l f a r i => simp [PPEvent.isModuleImport] at he
    | moduleImport l p =>
      simp only [noTextualAfterSemantic]
      exact ih1 _
    | FileNotFound f => simp [PPEvent.isModuleImport] at he

theorem noTextualAfterSemantic_of_textual_semantic (sm : SourceManager) (o : Options)
    (ts ss : List PPEvent) (hts : ∀ e ∈ ts, e.isInclusionDirective = true)
    (hss : ∀ e ∈ ss, e.isModuleImport = true) :
    noTextualAfterSemantic sm o false (ts ++ ss) = true := by
  induction ts with
  | nil => exact noTextualAfterSemantic_of_semantic sm o ss hss false
  | cons e ts ih =>
    have he := hts e (List.mem_cons_self _ _)
    have ih1 := ih (fun x hx => hts x (List.mem_cons_of_mem _ hx))
    cases e with
    | InclusionDirective l f a r i =>
      simp only [List.cons_append, noTextualAfterSemantic, Bool.false_and, Bool.not_false,
        Bool.true_and]
      exact ih1
    | moduleImport l p => simp [PPEvent.isInclusionDirective] at he
    | FileNotFound f => simp [PPEvent.isInclusionDirective] at he

/-- C2, as stated, fails: on Scenario A (`"b.h"`, `"a.h"`, then `z`) with both
options on, `EndOfMainFile` makes no call on the rewriter when the flag started
clear, and when the uninitialised flag started set the text it substitutes is
rendered with `#import`; in neither case is it the `#include` text of the claim. -/
theorem scenarioA_not_rewritten :
    (runFile (mainFileSM scenarioAText) insertionStdSort ⟨true, true, []⟩ false
      (scenarioATextual ++ scenarioASemantic)).Rewriter = [] ∧
    (runFile (mainFileSM scenarioAText) insertionStdSort ⟨true, true, []⟩ true
      (scenarioATextual ++ scenarioASemantic)).Rewriter =
      [RewriterCall.RemoveText (SourceRange.mk (at_ 0) (at_ 40)) RewriteOptions.default,
       RewriterCall.ReplaceText (SourceRange.mk (at_ 0) (at_ 40))
        "#import \"a.h\"\n#import \"b.h\"\n\n@import z;"] := by
  decide

/-! ## C5: the regenerated block -/

theorem foldl_append_eq_join {α : Type} (g : α → String) (l : List α) :
    ∀ init : String,
    l.foldl (fun acc i => acc ++ g i) init = init ++ String.join (l.map g) := by
  induction l with
  | nil =>
    intro init
    apply String.ext
    simp [String.data_join]
  | cons x xs ih =>
    intro init
    rw [List.foldl_cons, ih]
    apply String.ext
    simp [String.data_join, List.append_assoc]

theorem intercalate_go_data (sep : String) (l : List String) :
    ∀ acc : String, (String.intercalate.go acc sep l).data =
      acc.data ++ (l.map (fun x => sep.data ++ x.data)).flatten := by
  induction l with
  | nil =>
    intro acc
    simp [String.intercalate.go]
  | cons x xs ih =>
    intro acc
    simp [String.intercalate.go, ih, List.append_assoc]

theorem intercalate_cons_data (sep a : String) (l : List String) :
    (String.intercalate sep (a :: l)).data =
      a.data ++ (l.map (fun x => sep.data ++ x.data)).flatten := by
  simp only [String.intercalate, intercalate_go_data]

theorem flatten_terminated (c : Char) (l : List String) : ∀ a : String,
    (((a :: l).map (fun x => x ++ String.singleton c)).map String.data).flatten =
      (a.data ++ (l.map (fun x => [c] ++ x.data)).flatten) ++ [c] := by
  induction l with
  | nil =>
    intro a
    simp [String.singleton]
  | cons b bs ih =>
    intro a
    have h := ih b
    simp only [List.map_cons, List.flatten_cons] at h ⊢
    rw [h]
    simp [String.singleton, List.append_assoc]

/-- Lines each followed by a newline, the last newline dropped, are the lines
joined by newlines. -/
theorem pop_back_join (a : String) (l : List String) :
    pop_back (String.join ((a :: l).map (fun x => x ++ "\n"))) =
      String.intercalate "\n" (a :: l) := by
  apply String.ext
  rw [intercalate_cons_data]
  simp only [pop_back, String.data_join]
  have h := flatten_terminated '\n' l a
  have hs : String.singleton '\n' = "\n" := rfl
  rw [hs] at h
  rw [h, List.dropLast_concat]

theorem join_lines_blank (T S : List String) :
    String.join (T.map (fun x => x ++ "\n")) ++ "\n" ++ String.join (S.map (fun x => x ++ "\n")) =
      String.join ((T ++ [""] ++ S).map (fun x => x ++ "\n")) := by
  apply String.ext
  simp [String.data_join, List.append_assoc]

theorem CorrectedImports_eq_join (t : Callback) :
    CorrectedImports t =
      pop_back (String.join ((t.Imports.map Import.to_string).map (fun x => x ++ "\n")) ++ "\n" ++
        String.join ((t.SemanticImports.map SemanticImport.to_string).map (fun x => x ++ "\n"))) := by
  simp only [CorrectedImports]
  rw [foldl_append_eq_join (fun i : Import => i.to_string ++ "\n"),
    foldl_append_eq_join (fun i : SemanticImport => i.to_string ++ "\n")]
  simp only [List.map_map, String.append_assoc]
  congr 1

theorem CorrectedImports_eq_intercalate (t : Callback) :
    CorrectedImports t =
      String.intercalate "\n"
        (t.Imports.map Import.to_string ++ [""] ++
          t.SemanticImports.map SemanticImport.to_string) := by
  rw [CorrectedImports_eq_join, join_lines_blank]
  cases h : t.Imports.map Import.to_string with
  | nil => exact pop_back_join "" _
  | cons a l => exact pop_back_join a _

theorem intercalate_getLast (sep z : String) (c : Char) (pre : List Char)
    (hz : z.data = pre ++ [c]) (P : List String) :
    (String.intercalate sep (P ++ [z])).data.getLast? = some c := by
  cases P with
  | nil =>
    simp only [List.nil_append, String.intercalate, String.intercalate.go, hz,
      List.getLast?_concat]
  | cons a as =>
    rw [List.cons_append, intercalate_cons_data, List.map_append, List.flatten_append]
    simp only [List.map_cons, List.map_nil, List.flatten_cons, List.flatten_nil,
      List.append_nil, hz]
    simp only [← List.append_assoc, List.getLast?_concat]

/-- The character `MoveImports` pops is always a newline. -/
theorem unpopped_getLast (T S : List String) :
    (String.join (T.map (fun x => x ++ "\n")) ++ "\n" ++
      String.join (S.map (fun x => x ++ "\n"))).data.getLast? = some '\n' := by
  rw [join_lines_blank]
  have hs : String.singleton '\n' = "\n" := rfl
  cases T with
  | nil =>
    have h := flatten_terminated '\n' S ""
    rw [hs] at h
    simp only [List.nil_append, List.singleton_append, String.data_join, h,
      List.getLast?_concat]
  | cons a l =>
    have h := flatten_terminated '\n' (l ++ [""] ++ S) a
    rw [hs] at h
    simp only [List.cons_append, List.append_assoc, String.data_join] at h ⊢
    rw [h, ← List.append_assoc, List.getLast?_concat]

theorem CorrectedImports_getLast (t : Callback) (h : t.SemanticImports ≠ []) :
    (CorrectedImports t).data.getLast? = some ';' := by
  rw [CorrectedImports_eq_intercalate]
  rcases List.eq_nil_or_concat t.SemanticImports with h0 | ⟨S0, z, hS⟩
  · exact absurd h0 h
  · rw [hS, List.concat_eq_append, List.map_append, List.map_cons, List.map_nil,
      ← List.append_assoc]
    exact intercalate_getLast "\n" z.to_string ';' (z.token ++ " " ++ z.Name).data
      (by simp only [SemanticImport.to_string, String.data_append]) _

/-- C5 fails on the code: the constructor leaves `ShouldCorrectImports`
uninitialised, and when the member happens to hold `true` `EndOfMainFile`
rewrites a file that has textual imports only; the character popped is then
the blank line and the substituted text ends with a newline. -/
theorem CorrectedImports_trailing_newline :
    (deliver (mainFileSM textualOnlyText) ⟨false, true, []⟩ (construct true)
      textualOnlyEvents).ShouldCorrectImports = true ∧
    (deliver (mainFileSM textualOnlyText) ⟨false, true, []⟩ (construct true)
      textualOnlyEvents).FirstLocation.isValid = true ∧
    (deliver (mainFileSM textualOnlyText) ⟨false, true, []⟩ (construct true)
      textualOnlyEvents).LastLocation.isValid = true ∧
    CorrectedImports (deliver (mainFileSM textualOnlyText) ⟨false, true, []⟩ (construct true)
      textualOnlyEvents) = "#import \"a.h\"\n" ∧
    (CorrectedImports (deliver (mainFileSM textualOnlyText) ⟨false, true, []⟩ (construct true)
      textualOnlyEvents)).data.getLast? = some '\n' := by
  decide

/-- Whenever `EndOfMainFile` rewrites (flag set, both locations valid,
`MoveImportOrder` on), it calls `ReplaceText` with the text built from the
buffers as it leaves them: the rendered form of each textual record followed by
a newline, one more newline, the rendered form of each semantic record followed
by a newline, and the last character, always a newline, popped. That text is
the textual lines, one empty line and the semantic lines joined by single
newlines; when `SemanticImports` is non-empty its last character is the `;` of
the last semantic record. -/
theorem MoveImports_text (sm : SourceManager) (srt : StdSort) (o : Options) (s : Callback)
    (hflag : s.ShouldCorrectImports = true) (hfirst : s.FirstLocation.isValid = true)
    (hlast : s.LastLocation.isValid = true) (hmove : o.MoveImportOrder = true) :
    (EndOfMainFile sm srt o s).Rewriter = s.Rewriter ++
      [RewriterCall.RemoveText (MoveRange sm s) RewriteOptions.default,
       RewriterCall.ReplaceText (MoveRange sm s)
        (CorrectedImports (EndOfMainFile sm srt o s))] ∧
    CorrectedImports (EndOfMainFile sm srt o s) =
      pop_back
        (String.join (((EndOfMainFile sm srt o s).Imports.map Import.to_string).map
            (fun x => x ++ "\n")) ++ "\n" ++
          String.join (((EndOfMainFile sm srt o s).SemanticImports.map
            SemanticImport.to_string).map (fun x => x ++ "\n"))) ∧
    CorrectedImports (EndOfMainFile sm srt o s) =
      String.intercalate "\n"
        ((EndOfMainFile sm srt o s).Imports.map Import.to_string ++ [""] ++
          (EndOfMainFile sm srt o s).SemanticImports.map SemanticImport.to_string) ∧
    ((EndOfMainFile sm srt o s).SemanticImports ≠ [] →
      (CorrectedImports (EndOfMainFile sm srt o s)).data.getLast? = some ';') ∧
    (String.join (((EndOfMainFile sm srt o s).Imports.map Import.to_string).map
        (fun x => x ++ "\n")) ++ "\n" ++
      String.join (((EndOfMainFile sm srt o s).SemanticImports.map
        SemanticImport.to_string).map (fun x => x ++ "\n"))).data.getLast? = some '\n' ∧
    (EndOfMainFile sm srt o s).Imports =
      (if o.OrderOption then srt.sort (fun a b => stringLess a.Name b.Name) s.Imports
        else s.Imports) ∧
    (EndOfMainFile sm srt o s).SemanticImports =
      (if o.OrderOption then srt.sort (fun a b => stringLess a.Name b.Name) s.SemanticImports
        else s.SemanticImports) := by
  refine ⟨?_, CorrectedImports_eq_join _, CorrectedImports_eq_intercalate _,
    CorrectedImports_getLast _, unpopped_getLast _ _, ?_, ?_⟩
  · unfold EndOfMainFile
    simp only [hflag, hfirst, hlast, hmove, Bool.and_self, ↓reduceIte]
    cases o.OrderOption <;> rfl
  · unfold EndOfMainFile
    simp only [hflag, hfirst, hlast, hmove, Bool.and_self, ↓reduceIte]
    cases o.OrderOption <;> rfl
  · unfold EndOfMainFile
    simp only [hflag, hfirst, hlast, hmove, Bool.and_self, ↓reduceIte]
    cases o.OrderOption <;> rfl

/-! ## C11: the end position of a semantic import -/

/-- For a path of one segment the handler computes the end the specification
asks for. -/
theorem pathLoop_single (ImportLoc : SourceLocation) (Info : String) (old : SourceLocation) :
    (pathLoop ImportLoc "import  " [Info] ("", old)).2 = accumulatedEnd ImportLoc [Info] := by
  simp [pathLoop, accumulatedEnd]
  rfl

/-- C11 fails on the code: for `@import a.b;` the handler leaves in
`LastLocation` the import position plus 8 plus the length of the last segment
alone, offset 10, inside the directive, where the accumulated end is offset 12,
just after the `;`; with `b` in the removal list the `RemoveText` stops there
too. For the one-segment `@import z;` the two ends agree. -/
theorem moduleImport_end_not_accumulated :
    (moduleImport (mainFileSM multiSegmentText) ⟨false, false, []⟩ (construct false)
      (at_ 1) ["a", "b"]).LastLocation = at_ 10 ∧
    accumulatedEnd (at_ 1) ["a", "b"] = at_ 12 ∧
    (moduleImport (mainFileSM multiSegmentText) ⟨false, false, ["b"]⟩ (construct false)
      (at_ 1) ["a", "b"]).Rewriter =
      [RewriterCall.RemoveText (SourceRange.mk (at_ 0) (at_ 10)) (RewriteOptions.mk true)] ∧
    (moduleImport (mainFileSM semanticOnlyText) ⟨false, false, []⟩ (construct false)
      (at_ 1) ["z"]).LastLocation = accumulatedEnd (at_ 1) ["z"] := by
  decide

/-! ## C12: directives of other files -/

/-- C12: a textual or semantic import whose location is not in the analysed
file leaves the callback as it is, all members and all collaborators, whatever
the state, the options and the path: nothing is buffered, no location moves,
the flag stays, no warning is reported and no call is made on the rewriter,
even when the name is in the removal list. -/
theorem other_file_ignored (sm : SourceManager) (o : Options) (s : Callback)
    (loc : SourceLocation) (FileName : String) (IsAngled : Bool)
    (FilenameRange : SourceRange) (Imported : Bool) (Path : List String)
    (hother : sm.isInMainFile loc = false) :
    InclusionDirective sm s loc FileName IsAngled FilenameRange Imported = s ∧
    moduleImport sm o s loc Path = s :=
  ⟨InclusionDirective_not_main sm s loc FileName IsAngled FilenameRange Imported hother,
   moduleImport_not_main sm o s loc Path hother⟩

/-- Witness of C12: a location beyond the end of `removalText` is not in the
analysed file, and an import of `remove_me` reported there changes nothing
although `remove_me` is in the removal list. -/
theorem other_file_ignored_witness :
    (mainFileSM removalText).isInMainFile (SourceLocation.mk 1000) = false ∧
    "remove_me" ∈ (Options.mk true true ["remove_me"]).RemoveImport ∧
    moduleImport (mainFileSM removalText) ⟨true, true, ["remove_me"]⟩ (construct false)
      (SourceLocation.mk 1000) ["remove_me"] = construct false :=
  ⟨by decide, by decide,
   (other_file_ignored (mainFileSM removalText) ⟨true, true, ["remove_me"]⟩ (construct false)
      (SourceLocation.mk 1000) "remove_me" false ⟨at_ 0, at_ 0⟩ false ["remove_me"]
      (by decide)).2⟩

/-! ## C16: intake against the reference definition -/

theorem deliver_Imports (sm : SourceManager) (o : Options) (evs : List PPEvent) :
    ∀ s : Callback, (deliver sm o s evs).Imports = s.Imports ++ textualRecords sm evs := by
  induction evs with
  | nil => intro s; simp [deliver_nil, textualRecords]
  | cons e evs ih =>
    intro s
    rw [deliver_cons, ih]
    cases e with
    | InclusionDirective l f a r i =>
      cases hm : sm.isInMainFile l with
      | false =>
        simp [dispatch, InclusionDirective_not_main sm s l f a r i hm, textualRecords, hm]
      | true =>
        simp [dispatch, InclusionDirective_main sm s l f a r i hm, textualRecords, hm]
    | moduleImport l p =>
      cases hm : sm.isInMainFile l with
      | false => simp [dispatch, moduleImport_not_main sm o s l p hm, textualRecords]
      | true =>
        by_cases hn : p.getLast?.getD "" ∈ o.RemoveImport
        · simp [dispatch, moduleImport_removed sm o s l p hm hn, textualRecords]
        · simp [dispatch, moduleImport_recorded sm o s l p hm hn, textualRecords]
    | FileNotFound f => simp [dispatch, FileNotFound, textualRecords]

theorem deliver_SemanticImports (sm : SourceManager) (o : Options) (evs : List PPEvent) :
    ∀ s : Callback,
    (deliver sm o s evs).SemanticImports = s.SemanticImports ++ semanticRecords sm o evs := by
  induction evs with
  | nil => intro s; simp [deliver_nil, semanticRecords]
  | cons e evs ih =>
    intro s
    rw [deliver_cons, ih]
    cases e with
    | InclusionDirective l f a r i =>
      cases hm : sm.isInMainFile l with
      | false =>
        simp [dispatch, InclusionDirective_not_main sm s l f a r i hm, semanticRecords]
      | true =>
        simp [dispatch, InclusionDirective_main sm s l f a r i hm, semanticRecords]
    | moduleImport l p =>
      cases hm : sm.isInMainFile l with
      | false => simp [dispatch, moduleImport_not_main sm o s l p hm, semanticRecords, hm]
      | true =>
        by_cases hn : p.getLast?.getD "" ∈ o.RemoveImport
        · simp [dispatch, moduleImport_removed sm o s l p hm hn, semanticRecords, hm, hn]
        · simp [dispatch, moduleImport_recorded sm o s l p hm hn, semanticRecords, hm, hn]
    | FileNotFound f => simp [dispatch, FileNotFound, semanticRecords]

/-- C16: for every event stream, before any sort, `Imports` is exactly the list
of the textual imports of the analysed file in encounter order (name, location
and angled flag of each event, duplicates kept), and `SemanticImports` is
exactly the list, in encounter order, of the semantic imports of the analysed
file whose resolved name is not in the removal list, each with the last
segment of its path as name and the import location as position. In
`sameNameText` the file included twice gives two records, in `multiSegmentText`
the path `a.b` gives the name `b`, and in `removedFirstText` the removed
semantic import gives no record. -/
theorem intake_eq_reference (sm : SourceManager) (o : Options) (garbage : Bool)
    (evs : List PPEvent) :
    (deliver sm o (construct garbage) evs).Imports = textualRecords sm evs ∧
    (deliver sm o (construct garbage) evs).SemanticImports = semanticRecords sm o evs ∧
    textualRecords (mainFileSM sameNameText) sameNameEvents =
      [Import.mk "a.h" (at_ 11) true, Import.mk "a.h" (at_ 25) false] ∧
    semanticRecords (mainFileSM sameNameText) ⟨true, true, []⟩ sameNameEvents =
      [SemanticImport.mk "z" (at_ 1)] ∧
    semanticRecords (mainFileSM multiSegmentText) ⟨true, true, []⟩
      [PPEvent.moduleImport (at_ 1) ["a", "b"]] = [SemanticImport.mk "b" (at_ 1)] ∧
    semanticRecords (mainFileSM removedFirstText) ⟨true, true, ["remove_me"]⟩
      removedFirstEvents = [] := by
  rw [deliver_Imports, deliver_SemanticImports]
  refine ⟨by simp [construct], by simp [construct], ?_, ?_, ?_, ?_⟩ <;> decide

/-! ## C14 and C15: the two boundary locations by events -/

/-- One event leaves a non-empty buffer non-empty and, with a buffer non-empty,
leaves `FirstLocation` alone. -/
theorem dispatch_FirstLocation_frozen (sm : SourceManager) (o : Options) (s : Callback)
    (e : PPEvent) (h : s.Imports ≠ [] ∨ s.SemanticImports ≠ []) :
    ((dispatch sm o s e).Imports ≠ [] ∨ (dispatch sm o s e).SemanticImports ≠ []) ∧
    (dispatch sm o s e).FirstLocation = s.FirstLocation := by
  have hE : (s.Imports.isEmpty && s.SemanticImports.isEmpty) = false := by
    rcases h with h | h
    · simp [List.isEmpty_iff, h]
    · simp [List.isEmpty_iff, h]
  have hE2 : (s.SemanticImports.isEmpty && s.Imports.isEmpty) = false := by
    rw [Bool.and_comm]
    exact hE
  cases e with
  | InclusionDirective l f a r i =>
    cases hm : sm.isInMainFile l with
    | false =>
      simp only [dispatch, InclusionDirective_not_main sm s l f a r i hm]
      exact ⟨h, trivial⟩
    | true =>
      simp [dispatch, InclusionDirective_main sm s l f a r i hm, hE]
  | moduleImport l p =>
    cases hm : sm.isInMainFile l with
    | false =>
      simp only [dispatch, moduleImport_not_main sm o s l p hm]
      exact ⟨h, trivial⟩
    | true =>
      by_cases hn : p.getLast?.getD "" ∈ o.RemoveImport
      · simp only [dispatch, moduleImport_removed sm o s l p hm hn, hE2]
        exact ⟨h, by simp⟩
      · simp only [dispatch, moduleImport_recorded sm o s l p hm hn, hE2]
        exact ⟨Or.inr (by simp), by simp⟩
  | FileNotFound f =>
    exact ⟨h, rfl⟩

/-- Once a record is buffered no later event assigns `FirstLocation`. -/
theorem deliver_FirstLocation_frozen (sm : SourceManager) (o : Options)
    (evs : List PPEvent) : ∀ s : Callback,
    (s.Imports ≠ [] ∨ s.SemanticImports ≠ []) →
    (deliver sm o s evs).FirstLocation = s.FirstLocation := by
  induction evs with
  | nil => intro s _; rfl
  | cons e evs ih =>
    intro s h
    rw [deliver_cons, ih _ (dispatch_FirstLocation_frozen sm o s e h).1]
    exact (dispatch_FirstLocation_frozen sm o s e h).2

theorem deliver_FirstLocation_eq (sm : SourceManager) (o : Options) (evs : List PPEvent) :
    ∀ s : Callback, s.Imports = [] → s.SemanticImports = [] →
    (deliver sm o s evs).FirstLocation = firstLocationOf sm o s.FirstLocation evs := by
  induction evs with
  | nil => intro s _ _; rfl
  | cons e evs ih =>
    intro s hI hS
    rw [deliver_cons]
    cases e with
    | InclusionDirective l f a r i =>
      cases hm : sm.isInMainFile l with
      | false =>
        simp only [dispatch, InclusionDirective_not_main sm s l f a r i hm, firstLocationOf,
          PPEvent.recorded, PPEvent.removedByName, hm, Bool.false_eq_true, ↓reduceIte]
        exact ih s hI hS
      | true =>
        rw [deliver_FirstLocation_frozen sm o evs _
          (by simp [dispatch, InclusionDirective_main sm s l f a r i hm])]
        simp [dispatch, InclusionDirective_main sm s l f a r i hm, firstLocationOf,
          PPEvent.recorded, PPEvent.location, hm, hI, hS]
    | moduleImport l p =>
      cases hm : sm.isInMainFile l with
      | false =>
        simp only [dispatch, moduleImport_not_main sm o s l p hm, firstLocationOf,
          PPEvent.recorded, PPEvent.removedByName, hm, Bool.false_and, Bool.false_eq_true,
          ↓reduceIte]
        exact ih s hI hS
      | true =>
        by_cases hn : p.getLast?.getD "" ∈ o.RemoveImport
        · have h1 := ih (dispatch sm o s (PPEvent.moduleImport l p))
            (by simp [dispatch, moduleImport_removed sm o s l p hm hn, hI])
            (by simp [dispatch, moduleImport_removed sm o s l p hm hn, hS])
          rw [h1]
          simp [dispatch, moduleImport_removed sm o s l p hm hn, firstLocationOf,
            PPEvent.recorded, PPEvent.removedByName, PPEvent.location, hm, hn, hI, hS]
        · rw [deliver_FirstLocation_frozen sm o evs _
            (by simp [dispatch, moduleImport_recorded sm o s l p hm hn])]
          simp [dispatch, moduleImport_recorded sm o s l p hm hn, firstLocationOf,
            PPEvent.recorded, PPEvent.location, hm, hn, hI, hS]
    | FileNotFound f =>
      simp only [firstLocationOf, PPEvent.recorded, PPEvent.removedByName,
        Bool.false_eq_true, ↓reduceIte]
      exact ih _ hI hS

theorem deliver_LastLocation_eq (sm : SourceManager) (o : Options) (evs : List PPEvent) :
    ∀ s : Callback,
    (deliver sm o s evs).LastLocation = lastLocationOf sm s.LastLocation evs := by
  induction evs with
  | nil => intro s; rfl
  | cons e evs ih =>
    intro s
    rw [deliver_cons, ih]
    cases e with
    | InclusionDirective l f a r i =>
      cases hm : sm.isInMainFile l with
      | false =>
        simp [dispatch, InclusionDirective_not_main sm s l f a r i hm, lastLocationOf, hm]
      | true =>
        simp [dispatch, InclusionDirective_main sm s l f a r i hm, lastLocationOf, hm]
    | moduleImport l p =>
      cases hm : sm.isInMainFile l with
      | false =>
        simp [dispatch, moduleImport_not_main sm o s l p hm, lastLocationOf, hm]
      | true =>
        by_cases hn : p.getLast?.getD "" ∈ o.RemoveImport
        · simp [dispatch, moduleImport_removed sm o s l p hm hn, lastLocationOf, hm,
            pathLoop_snd]
        · simp [dispatch, moduleImport_recorded sm o s l p hm hn, lastLocationOf, hm,
            pathLoop_snd]
    | FileNotFound f => simp [dispatch, FileNotFound, lastLocationOf]

theorem firstLocationOf_first_recorded (sm : SourceManager) (o : Options) (e : PPEvent)
    (l2 : List PPEvent) (he : e.recorded sm o = true) :
    ∀ (l1 : List PPEvent) (cur : SourceLocation), (∀ x ∈ l1, x.recorded sm o = false) →
    firstLocationOf sm o cur (l1 ++ e :: l2) = e.location := by
  intro l1
  induction l1 with
  | nil =>
    intro cur _
    simp [firstLocationOf, he]
  | cons x xs ih =>
    intro cur hx
    have hx1 : x.recorded sm o = false := hx x (List.mem_cons_self _ _)
    have hxs : ∀ y ∈ xs, y.recorded sm o = false :=
      fun y hy => hx y (List.mem_cons_of_mem _ hy)
    simp only [List.cons_append, firstLocationOf, hx1, Bool.false_eq_true, ↓reduceIte]
    split
    · exact ih _ hxs
    · exact ih _ hxs

theorem dispatch_FirstLocation_assigned (sm : SourceManager) (o : Options) (s : Callback)
    (e : PPEvent) (hI : s.Imports = []) (hS : s.SemanticImports = [])
    (he : e.recorded sm o = true ∨ e.removedByName sm o = true) :
    (dispatch sm o s e).FirstLocation = e.location := by
  cases e with
  | InclusionDirective l f a r i =>
    have hm : sm.isInMainFile l = true := by
      rcases he with h | h
      · exact h
      · simp [PPEvent.removedByName] at h
    simp [dispatch, InclusionDirective_main sm s l f a r i hm, PPEvent.location, hI, hS]
  | moduleImport l p =>
    have hm : sm.isInMainFile l = true := by
      rcases he with h | h
      · simp only [PPEvent.recorded, Bool.and_eq_true] at h
        exact h.1
      · simp only [PPEvent.removedByName, Bool.and_eq_true] at h
        exact h.1
    by_cases hn : p.getLast?.getD "" ∈ o.RemoveImport
    · simp [dispatch, moduleImport_removed sm o s l p hm hn, PPEvent.location, hI, hS]
    · simp [dispatch, moduleImport_recorded sm o s l p hm hn, PPEvent.location, hI, hS]
  | FileNotFound f =>
    rcases he with h | h
    · simp [PPEvent.recorded] at h
    · simp [PPEvent.removedByName] at h

/-- C14, as stated, fails: in `removedFirstText` the earliest directive is a
semantic import removed by name; it sets `FirstLocation` to its own location,
and the textual import after it sets `FirstLocation` again, to a later one. -/
theorem FirstLocation_overwritten_after_removal :
    (deliver (mainFileSM removedFirstText) ⟨true, true, ["remove_me"]⟩ (construct false)
      [PPEvent.moduleImport (at_ 1) ["remove_me"]]).FirstLocation = at_ 1 ∧
    (deliver (mainFileSM removedFirstText) ⟨true, true, ["remove_me"]⟩ (construct false)
      removedFirstEvents).FirstLocation = at_ 19 := by
  decide

/-- C14, amended: `FirstLocation` is assigned by every directive of the
analysed file, recorded or removed, that is delivered while both buffers are
empty, and by no event once a record is buffered. So for every event stream,
when `EndOfMainFile` is reached it is the location of the first recorded
directive if the stream has one, and otherwise the location of the latest
semantic import removed by name (invalid if there is none). -/
theorem FirstLocation_by_events (sm : SourceManager) (o : Options) (garbage : Bool)
    (evs : List PPEvent) :
    (deliver sm o (construct garbage) evs).FirstLocation =
      firstLocationOf sm o SourceLocation.invalid evs ∧
    (∀ (l1 : List PPEvent) (e : PPEvent) (l2 : List PPEvent), evs = l1 ++ e :: l2 →
      (∀ x ∈ l1, x.recorded sm o = false) → e.recorded sm o = true →
      (deliver sm o (construct garbage) evs).FirstLocation = e.location) ∧
    (∀ (s : Callback) (more : List PPEvent), (s.Imports ≠ [] ∨ s.SemanticImports ≠ []) →
      (deliver sm o s more).FirstLocation = s.FirstLocation) ∧
    (∀ (s : Callback) (e : PPEvent), s.Imports = [] → s.SemanticImports = [] →
      (e.recorded sm o = true ∨ e.removedByName sm o = true) →
      (dispatch sm o s e).FirstLocation = e.location) := by
  have h0 : (deliver sm o (construct garbage) evs).FirstLocation =
      firstLocationOf sm o SourceLocation.invalid evs :=
    deliver_FirstLocation_eq sm o evs (construct garbage) rfl rfl
  refine ⟨h0, ?_, fun s more h => deliver_FirstLocation_frozen sm o more s h,
    fun s e hI hS he => dispatch_FirstLocation_assigned sm o s e hI hS he⟩
  intro l1 e l2 hevs hl1 he
  rw [h0, hevs]
  exact firstLocationOf_first_recorded sm o e l2 he l1 _ hl1

/-- Witness of C14: in `removedFirstText` the removed semantic import is not
recorded, the textual import after it is, and `FirstLocation` ends as the
location of that textual import. -/
theorem FirstLocation_by_events_witness :
    removedFirstEvents =
      [PPEvent.moduleImport (at_ 1) ["remove_me"]] ++
        PPEvent.InclusionDirective (at_ 19) "a.h" false ⟨at_ 27, at_ 32⟩ false :: [] ∧
    (deliver (mainFileSM removedFirstText) ⟨true, true, ["remove_me"]⟩ (construct false)
      removedFirstEvents).FirstLocation =
      (PPEvent.InclusionDirective (at_ 19) "a.h" false ⟨at_ 27, at_ 32⟩ false).location :=
  ⟨rfl,
   (FirstLocation_by_events (mainFileSM removedFirstText) ⟨true, true, ["remove_me"]⟩ false
      removedFirstEvents).2.1 [PPEvent.moduleImport (at_ 1) ["remove_me"]]
      (PPEvent.InclusionDirective (at_ 19) "a.h" false ⟨at_ 27, at_ 32⟩ false) [] rfl
      (by decide) (by decide)⟩

/-- C15, as stated, fails: in `removedLastText` a textual import is buffered,
with `LastLocation` at the end of its file name, and the semantic import
removed after it moves `LastLocation` to the end computed for the removed
directive, while the buffers stay as they were. -/
theorem LastLocation_moved_by_removal :
    (deliver (mainFileSM removedLastText) ⟨true, true, ["remove_me"]⟩ (construct false)
      [PPEvent.InclusionDirective (at_ 0) "a.h" false ⟨at_ 8, at_ 13⟩ false]).LastLocation =
      at_ 13 ∧
    (deliver (mainFileSM removedLastText) ⟨true, true, ["remove_me"]⟩ (construct false)
      removedLastEvents).Imports = [Import.mk "a.h" (at_ 0) false] ∧
    (deliver (mainFileSM removedLastText) ⟨true, true, ["remove_me"]⟩ (construct false)
      removedLastEvents).SemanticImports = [] ∧
    (deliver (mainFileSM removedLastText) ⟨true, true, ["remove_me"]⟩ (construct false)
      removedLastEvents).LastLocation = at_ 32 := by
  decide

/-- C15, amended: `LastLocation` follows every directive of the analysed
file, recorded or removed: in every reachable state it is the end of the
latest such directive, the end of the file-name range for a textual import and
the import location plus 8 plus the length of the last path segment for a
semantic import; a semantic import removed by name moves it like a recorded
one. -/
theorem LastLocation_by_events (sm : SourceManager) (o : Options) (garbage : Bool)
    (evs : List PPEvent) :
    (deliver sm o (construct garbage) evs).LastLocation =
      lastLocationOf sm SourceLocation.invalid evs ∧
    (∀ (s : Callback) (HashLoc : SourceLocation) (FileName : String) (IsAngled : Bool)
      (FilenameRange : SourceRange) (Imported : Bool), sm.isInMainFile HashLoc = true →
      (InclusionDirective sm s HashLoc FileName IsAngled FilenameRange Imported).LastLocation =
        FilenameRange.End) ∧
    (∀ (s : Callback) (ImportLoc : SourceLocation) (Path : List String) (Info : String),
      sm.isInMainFile ImportLoc = true → Path.getLast? = some Info →
      (moduleImport sm o s ImportLoc Path).LastLocation =
        ImportLoc.getLocWithOffset (SourceLocation.toIntTy (8 + Info.length))) := by
  refine ⟨deliver_LastLocation_eq sm o evs (construct garbage), ?_, ?_⟩
  · intro s l f a r i hm
    rw [InclusionDirective_main sm s l f a r i hm]
  · intro s l p Info hm hp
    by_cases hn : p.getLast?.getD "" ∈ o.RemoveImport
    · rw [moduleImport_removed sm o s l p hm hn]
      simp only [pathLoop_snd, hp]
    · rw [moduleImport_recorded sm o s l p hm hn]
      simp only [pathLoop_snd, hp]

/-- Witness of C15: the removed semantic import of `removedLastText` leaves
`LastLocation` at its own computed end. -/
theorem LastLocation_by_events_witness :
    (mainFileSM removedLastText).isInMainFile (at_ 15) = true ∧
    ["remove_me"].getLast? = some "remove_me" ∧
    (moduleImport (mainFileSM removedLastText) ⟨true, true, ["remove_me"]⟩
      (deliver (mainFileSM removedLastText) ⟨true, true, ["remove_me"]⟩ (construct false)
        [PPEvent.InclusionDirective (at_ 0) "a.h" false ⟨at_ 8, at_ 13⟩ false])
      (at_ 15) ["remove_me"]).LastLocation =
      (at_ 15).getLocWithOffset (SourceLocation.toIntTy (8 + "remove_me".length)) :=
  ⟨by decide, rfl,
   (LastLocation_by_events (mainFileSM removedLastText) ⟨true, true, ["remove_me"]⟩ false
      removedLastEvents).2.2
      (deliver (mainFileSM removedLastText) ⟨true, true, ["remove_me"]⟩ (construct false)
        [PPEvent.InclusionDirective (at_ 0) "a.h" false ⟨at_ 8, at_ 13⟩ false])
      (at_ 15) ["remove_me"] "remove_me" (by decide) rfl⟩

/-! ## C13: stability of the sort -/

/-- In a list ordered by a string key, whatever lies between two elements of
equal key has that key too. -/
theorem sorted_equal_keys_contiguous {α : Type} (key : α → String) (l : List α)
    (hs : l.Pairwise (fun a b => stringLess (key b) (key a) = false))
    (l1 : List α) (a : α) (l2 : List α) (b : α) (l3 : List α)
    (hl : l = l1 ++ a :: (l2 ++ b :: l3)) (hab : key a = key b) :
    ∀ c ∈ l2, key c = key a := by
  intro c hc
  rw [hl] at hs
  have h1 := (List.pairwise_append.1 hs).2.1
  have h2 := List.pairwise_cons.1 h1
  have hac : stringLess (key c) (key a) = false :=
    h2.1 c (List.mem_append_left _ hc)
  have hcb : stringLess (key b) (key c) = false :=
    (List.pairwise_append.1 h2.2).2.2 c hc b (List.mem_cons_self _ _)
  rw [← hab] at hcb
  exact stringLess_connex _ _ hac hcb

set_option maxRecDepth 100000

/-- C13, as stated, fails: `SortImports` is `std::sort`, which may reorder
records of equal name. In `seventeenText` the file `a.h` is included angled
first and quoted sixteen times after; the seventeen records are buffered in
that order, and the `std::sort` of libstdc++, which partitions an array of more
than sixteen elements around a pivot, leaves the quoted record of offset 123
first and the angled one in tenth place. The run of the algorithm on the
records themselves gives the same arrangement. -/
theorem SortImports_not_stable :
    (deliver (mainFileSM seventeenText) ⟨true, true, []⟩ (construct false)
      seventeenEvents).Imports.map Import.HashLocation =
      [at_ 11, at_ 25, at_ 39, at_ 53, at_ 67, at_ 81, at_ 95, at_ 109, at_ 123, at_ 137,
       at_ 151, at_ 165, at_ 179, at_ 193, at_ 207, at_ 221, at_ 235] ∧
    (deliver (mainFileSM seventeenText) ⟨true, true, []⟩ (construct false)
      seventeenEvents).Imports.head? = some (Import.mk "a.h" (at_ 11) true) ∧
    (∀ i ∈ (deliver (mainFileSM seventeenText) ⟨true, true, []⟩ (construct false)
      seventeenEvents).Imports, i.Name = "a.h") ∧
    (runFile (mainFileSM seventeenText) libstdcxxStdSort ⟨true, true, []⟩ false
      seventeenEvents).Imports.map Import.HashLocation =
      [at_ 123, at_ 235, at_ 221, at_ 207, at_ 193, at_ 179, at_ 165, at_ 151, at_ 137,
       at_ 11, at_ 109, at_ 95, at_ 81, at_ 67, at_ 53, at_ 39, at_ 25] ∧
    (runFile (mainFileSM seventeenText) libstdcxxStdSort ⟨true, true, []⟩ false
      seventeenEvents).Imports.head? = some (Import.mk "a.h" (at_ 123) false) ∧
    libstdcxx.sort (fun a b : Import => stringLess a.Name b.Name)
      (deliver (mainFileSM seventeenText) ⟨true, true, []⟩ (construct false)
        seventeenEvents).Imports =
      some (runFile (mainFileSM seventeenText) libstdcxxStdSort ⟨true, true, []⟩ false
        seventeenEvents).Imports := by
  decide

/-- C13, amended: the alphabetising sort keeps the records of equal name
together but fixes no order among them: for every `std::sort` and every two
records of one sequence with equal names, after `SortImports` every record
lying between them has that name too, and every record occurs as many times as
before; which of the two comes first is left to `std::sort`. -/
theorem SortImports_equal_names_contiguous (srt : StdSort) (s : Callback) :
    (∀ (l1 : List Import) (a : Import) (l2 : List Import) (b : Import) (l3 : List Import),
      (SortImports srt s).Imports = l1 ++ a :: (l2 ++ b :: l3) → a.Name = b.Name →
      ∀ c ∈ l2, c.Name = a.Name) ∧
    (∀ (l1 : List SemanticImport) (a : SemanticImport) (l2 : List SemanticImport)
      (b : SemanticImport) (l3 : List SemanticImport),
      (SortImports srt s).SemanticImports = l1 ++ a :: (l2 ++ b :: l3) → a.Name = b.Name →
      ∀ c ∈ l2, c.Name = a.Name) ∧
    (∀ r : Import, (SortImports srt s).Imports.count r = s.Imports.count r) ∧
    (∀ r : SemanticImport,
      (SortImports srt s).SemanticImports.count r = s.SemanticImports.count r) := by
  refine ⟨?_, ?_, ?_, ?_⟩
  · intro l1 a l2 b l3 hl hab
    exact sorted_equal_keys_contiguous Import.Name _
      (srt.sorted _ s.Imports (strictWeakOrder_of_key Import.Name)) l1 a l2 b l3 hl hab
  · intro l1 a l2 b l3 hl hab
    exact sorted_equal_keys_contiguous SemanticImport.Name _
      (srt.sorted _ s.SemanticImports (strictWeakOrder_of_key SemanticImport.Name))
      l1 a l2 b l3 hl hab
  · intro r
    exact (srt.perm _ s.Imports).count_eq r
  · intro r
    exact (srt.perm _ s.SemanticImports).count_eq r

/-- Witness of C13: the file `a.h` imported three times and sorted by the
`std::sort` of libstdc++: the three records stay together. -/
theorem SortImports_equal_names_contiguous_witness :
    (SortImports libstdcxxStdSort
      { construct false with
        Imports := [Import.mk "a.h" (at_ 0) true, Import.mk "a.h" (at_ 14) false,
          Import.mk "a.h" (at_ 28) true] }).Imports =
      [] ++ Import.mk "a.h" (at_ 0) true ::
        ([Import.mk "a.h" (at_ 14) false] ++ Import.mk "a.h" (at_ 28) true :: []) ∧
    ∀ c ∈ [Import.mk "a.h" (at_ 14) false], c.Name = "a.h" :=
  ⟨by decide,
   (SortImports_equal_names_contiguous libstdcxxStdSort
      { construct false with
        Imports := [Import.mk "a.h" (at_ 0) true, Import.mk "a.h" (at_ 14) false,
          Import.mk "a.h" (at_ 28) true] }).1
      [] (Import.mk "a.h" (at_ 0) true) [Import.mk "a.h" (at_ 14) false]
      (Import.mk "a.h" (at_ 28) true) [] (by decide) rfl⟩

/-! ## C18: the calls of a rewrite -/

/-- C18, as stated, fails: in `violationText` with `moveImportOrder` on and an
empty removal list the run makes two calls on the rewriter, a `RemoveText` over
the range and then a `ReplaceText` over the same range. -/
theorem MoveImports_two_calls :
    (runFile (mainFileSM violationText) insertionStdSort ⟨false, true, []⟩ false
      violationEvents).Rewriter =
      [RewriterCall.RemoveText (SourceRange.mk (at_ 1) (at_ 38)) RewriteOptions.default,
       RewriterCall.ReplaceText (SourceRange.mk (at_ 1) (at_ 38))
        "#import \"b.h\"\n#import \"a.h\"\n\n@import z;"] ∧
    (runFile (mainFileSM violationText) insertionStdSort ⟨false, true, []⟩ false
      violationEvents).Rewriter.length = 2 := by
  decide

/-- C18, amended: `EndOfMainFile` rewrites with two calls on the rewriter:
when the flag is set, both locations are valid and `MoveImportOrder` is on, a
`RemoveText` over the range from the adjusted start to `LastLocation`, then a
`ReplaceText` over the same range with the regenerated text; otherwise no call.
In a run with an empty removal list these are the only calls: the run makes
either none or exactly these two. -/
theorem EndOfMainFile_calls (sm : SourceManager) (srt : StdSort) (o : Options)
    (s : Callback) (a b garbage : Bool) (evs : List PPEvent) :
    (EndOfMainFile sm srt o s).Rewriter = s.Rewriter ++
      (if s.ShouldCorrectImports && s.FirstLocation.isValid && s.LastLocation.isValid &&
          o.MoveImportOrder then
        [RewriterCall.RemoveText (MoveRange sm s) RewriteOptions.default,
         RewriterCall.ReplaceText (MoveRange sm s)
          (CorrectedImports (EndOfMainFile sm srt o s))]
      else []) ∧
    (MoveRange sm s).End = s.LastLocation ∧
    ((runFile sm srt ⟨a, b, []⟩ garbage evs).Rewriter = [] ∨
     (runFile sm srt ⟨a, b, []⟩ garbage evs).Rewriter =
      [RewriterCall.RemoveText
        (MoveRange sm (deliver sm ⟨a, b, []⟩ (construct garbage) evs)) RewriteOptions.default,
       RewriterCall.ReplaceText
        (MoveRange sm (deliver sm ⟨a, b, []⟩ (construct garbage) evs))
        (CorrectedImports (runFile sm srt ⟨a, b, []⟩ garbage evs))]) := by
  have hcalls : ∀ (o : Options) (s : Callback),
      (EndOfMainFile sm srt o s).Rewriter = s.Rewriter ++
      (if s.ShouldCorrectImports && s.FirstLocation.isValid && s.LastLocation.isValid &&
          o.MoveImportOrder then
        [RewriterCall.RemoveText (MoveRange sm s) RewriteOptions.default,
         RewriterCall.ReplaceText (MoveRange sm s)
          (CorrectedImports (EndOfMainFile sm srt o s))]
      else []) := by
    intro o s
    unfold EndOfMainFile
    cases hc : (s.ShouldCorrectImports && s.FirstLocation.isValid && s.LastLocation.isValid)
    · simp only [Bool.false_eq_true, ↓reduceIte, Bool.false_and]
      split <;> simp
    · cases hO : o.OrderOption <;> cases hM : o.MoveImportOrder <;>
        simp [MoveImports, SortImports, MoveRange, FirstLocationOffset, CorrectedImports]
  refine ⟨hcalls o s, rfl, ?_⟩
  have h := hcalls ⟨a, b, []⟩ (deliver sm ⟨a, b, []⟩ (construct garbage) evs)
  rw [deliver_Rewriter_of_no_removal] at h
  unfold runFile
  rw [h]
  split
  · right
    rfl
  · left
    rfl

/-! ## C17 and C19: what the flag implies -/

theorem lineAfterFirstModule_nonempty (sm : SourceManager) (s : Callback)
    (l : SourceLocation) (h : lineAfterFirstModule sm s l = true) :
    s.SemanticImports ≠ [] := by
  intro hS
  simp [lineAfterFirstModule, hS] at h

/-- One event keeps: the flag is set only with both buffers non-empty. -/
theorem dispatch_flag_inv (sm : SourceManager) (o : Options) (s : Callback) (e : PPEvent)
    (h : s.ShouldCorrectImports = true → s.Imports ≠ [] ∧ s.SemanticImports ≠ []) :
    (dispatch sm o s e).ShouldCorrectImports = true →
      (dispatch sm o s e).Imports ≠ [] ∧ (dispatch sm o s e).SemanticImports ≠ [] := by
  cases e with
  | InclusionDirective l f a r i =>
    cases hm : sm.isInMainFile l with
    | false =>
      simp only [dispatch, InclusionDirective_not_main sm s l f a r i hm]
      exact h
    | true =>
      simp only [dispatch, InclusionDirective_main sm s l f a r i hm, Bool.or_eq_true]
      intro hf
      refine ⟨by simp, ?_⟩
      rcases hf with hf | hf
      · exact (h hf).2
      · exact lineAfterFirstModule_nonempty sm s l hf
  | moduleImport l p =>
    cases hm : sm.isInMainFile l with
    | false =>
      simp only [dispatch, moduleImport_not_main sm o s l p hm]
      exact h
    | true =>
      by_cases hn : p.getLast?.getD "" ∈ o.RemoveImport
      · simp only [dispatch, moduleImport_removed sm o s l p hm hn]
        exact h
      · simp only [dispatch, moduleImport_recorded sm o s l p hm hn]
        intro hf
        exact ⟨(h hf).1, by simp⟩
  | FileNotFound f =>
    exact h

theorem deliver_flag_inv (sm : SourceManager) (o : Options) (evs : List PPEvent) :
    ∀ s : Callback,
    (s.ShouldCorrectImports = true → s.Imports ≠ [] ∧ s.SemanticImports ≠ []) →
    ((deliver sm o s evs).ShouldCorrectImports = true →
      (deliver sm o s evs).Imports ≠ [] ∧ (deliver sm o s evs).SemanticImports ≠ []) := by
  induction evs with
  | nil => intro s h; exact h
  | cons e evs ih =>
    intro s h
    rw [deliver_cons]
    exact ih _ (dispatch_flag_inv sm o s e h)

/-- One event with valid positions keeps: with a record buffered, both
boundary locations are valid. -/
theorem dispatch_boundaries_inv (sm : SourceManager) (o : Options) (s : Callback)
    (e : PPEvent) (hv : e.validPositions = true)
    (h : (s.Imports ≠ [] ∨ s.SemanticImports ≠ []) →
      s.FirstLocation.isValid = true ∧ s.LastLocation.isValid = true) :
    ((dispatch sm o s e).Imports ≠ [] ∨ (dispatch sm o s e).SemanticImports ≠ []) →
      (dispatch sm o s e).FirstLocation.isValid = true ∧
      (dispatch sm o s e).LastLocation.isValid = true := by
  have hfirst : ∀ l : SourceLocation, sm.isInMainFile l = true →
      (if s.Imports.isEmpty && s.SemanticImports.isEmpty then l
        else s.FirstLocation).isValid = true := by
    intro l hm
    cases hI : s.Imports with
    | nil =>
      cases hS : s.SemanticImports with
      | nil => simpa using isValid_of_inMainFile sm l hm
      | cons m ms => simpa using (h (Or.inr (by simp [hS]))).1
    | cons m ms => simpa using (h (Or.inl (by simp [hI]))).1
  cases e with
  | InclusionDirective l f a r i =>
    cases hm : sm.isInMainFile l with
    | false =>
      simp only [dispatch, InclusionDirective_not_main sm s l f a r i hm]
      exact h
    | true =>
      simp only [dispatch, InclusionDirective_main sm s l f a r i hm]
      intro _
      exact ⟨hfirst l hm, hv⟩
  | moduleImport l p =>
    cases hm : sm.isInMainFile l with
    | false =>
      simp only [dispatch, moduleImport_not_main sm o s l p hm]
      exact h
    | true =>
      have hlast : (pathLoop l "import  " p ("", s.LastLocation)).2.isValid = true := by
        rw [pathLoop_snd]
        simp only [PPEvent.validPositions] at hv
        cases hp : p.getLast? with
        | none => simp [hp] at hv
        | some Info => simpa [hp] using hv
      have hfirst2 : (if s.SemanticImports.isEmpty && s.Imports.isEmpty then l
          else s.FirstLocation).isValid = true := by
        rw [Bool.and_comm]
        exact hfirst l hm
      by_cases hn : p.getLast?.getD "" ∈ o.RemoveImport
      · simp only [dispatch, moduleImport_removed sm o s l p hm hn]
        intro _
        exact ⟨hfirst2, hlast⟩
      · simp only [dispatch, moduleImport_recorded sm o s l p hm hn]
        intro _
        exact ⟨hfirst2, hlast⟩
  | FileNotFound f =>
    exact h

theorem deliver_boundaries_inv (sm : SourceManager) (o : Options) (evs : List PPEvent)
    (hv : ∀ e ∈ evs, e.validPositions = true) :
    ∀ s : Callback,
    ((s.Imports ≠ [] ∨ s.SemanticImports ≠ []) →
      s.FirstLocation.isValid = true ∧ s.LastLocation.isValid = true) →
    (((deliver sm o s evs).Imports ≠ [] ∨ (deliver sm o s evs).SemanticImports ≠ []) →
      (deliver sm o s evs).FirstLocation.isValid = true ∧
      (deliver sm o s evs).LastLocation.isValid = true) := by
  induction evs with
  | nil => intro s h; exact h
  | cons e evs ih =>
    intro s h
    rw [deliver_cons]
    exact ih (fun x hx => hv x (List.mem_cons_of_mem _ hx)) _
      (dispatch_boundaries_inv sm o s e (hv e (List.mem_cons_self _ _)) h)

/-- From a callback whose flag is clear, for every stream of events with valid
positions: when the flag is set both buffers are non-empty and both boundary
locations are valid, so `EndOfMainFile` prints `File Invalid` only with the
flag clear. -/
theorem flag_implies_boundaries (sm : SourceManager) (srt : StdSort) (o : Options)
    (evs : List PPEvent) (hv : ∀ e ∈ evs, e.validPositions = true)
    (hflag : (deliver sm o (construct false) evs).ShouldCorrectImports = true) :
    (deliver sm o (construct false) evs).Imports ≠ [] ∧
    (deliver sm o (construct false) evs).SemanticImports ≠ [] ∧
    (deliver sm o (construct false) evs).FirstLocation.isValid = true ∧
    (deliver sm o (construct false) evs).LastLocation.isValid = true ∧
    (runFile sm srt o false evs).outs = (deliver sm o (construct false) evs).outs := by
  have h1 := deliver_flag_inv sm o evs (construct false)
    (by intro h; simp [construct] at h) hflag
  have h2 := deliver_boundaries_inv sm o evs hv (construct false)
    (by intro h; simp [construct] at h) (Or.inl h1.1)
  refine ⟨h1.1, h1.2, h2.1, h2.2, ?_⟩
  unfold runFile EndOfMainFile
  simp only [hflag, h2.1, h2.2, Bool.and_self, ↓reduceIte]
  cases o.OrderOption <;> cases o.MoveImportOrder <;> rfl

/-- C17 fails on the code: the constructor leaves `ShouldCorrectImports`
uninitialised, and when the member happens to hold `true`, in a file without
directives `EndOfMainFile` meets the flag set with both boundary locations
invalid and prints `File Invalid`; the same holds after a handler has returned
from a directive of another file. When the member holds `false` the message is
printed with the flag clear. -/
theorem flag_set_boundaries_invalid :
    (construct true).ShouldCorrectImports = true ∧
    (construct true).FirstLocation.isValid = false ∧
    (construct true).LastLocation.isValid = false ∧
    (runFile (mainFileSM "int x;\n") insertionStdSort ⟨true, true, []⟩ true []).outs =
      ["File Invalid\n"] ∧
    (PPEvent.InclusionDirective (SourceLocation.mk 1000) "x.h" true
      ⟨SourceLocation.mk 1008, SourceLocation.mk 1013⟩ false).validPositions = true ∧
    (deliver (mainFileSM "int x;\n") ⟨true, true, []⟩ (construct true)
      [PPEvent.InclusionDirective (SourceLocation.mk 1000) "x.h" true
        ⟨SourceLocation.mk 1008, SourceLocation.mk 1013⟩ false]).ShouldCorrectImports = true ∧
    (deliver (mainFileSM "int x;\n") ⟨true, true, []⟩ (construct true)
      [PPEvent.InclusionDirective (SourceLocation.mk 1000) "x.h" true
        ⟨SourceLocation.mk 1008, SourceLocation.mk 1013⟩ false]).FirstLocation.isValid = false ∧
    (runFile (mainFileSM "int x;\n") insertionStdSort ⟨true, true, []⟩ false []).outs =
      ["File Invalid\n"] ∧
    (construct false).ShouldCorrectImports = false := by
  decide

/-- C19 fails on the code: the constructor leaves `ShouldCorrectImports`
uninitialised, and when the member happens to hold `true` the flag is set after
the handler of the single directive of `semanticOnlyText` has returned, with no
textual import buffered, and after that of `textualOnlyText`, with no semantic
one; `MoveImports` then runs and the text it substitutes for `semanticOnlyText`
has no textual line. -/
theorem flag_set_buffer_empty :
    (deliver (mainFileSM semanticOnlyText) ⟨false, true, []⟩ (construct true)
      semanticOnlyEvents).ShouldCorrectImports = true ∧
    (deliver (mainFileSM semanticOnlyText) ⟨false, true, []⟩ (construct true)
      semanticOnlyEvents).Imports = [] ∧
    (runFile (mainFileSM semanticOnlyText) insertionStdSort ⟨false, true, []⟩ true
      semanticOnlyEvents).Rewriter =
      [RewriterCall.RemoveText (SourceRange.mk (at_ 1) (at_ 10)) RewriteOptions.default,
       RewriterCall.ReplaceText (SourceRange.mk (at_ 1) (at_ 10)) "\n@import z;"] ∧
    (deliver (mainFileSM textualOnlyText) ⟨false, true, []⟩ (construct true)
      textualOnlyEvents).ShouldCorrectImports = true ∧
    (deliver (mainFileSM textualOnlyText) ⟨false, true, []⟩ (construct true)
      textualOnlyEvents).SemanticImports = [] := by
  decide

/-! ## C2 and C5: the rewrite after a violation, from a clear flag -/

/-- One event keeps: the flag is set exactly when a warning has been reported. -/
theorem dispatch_flag_eq_reported (sm : SourceManager) (o : Options) (s : Callback)
    (e : PPEvent) (h : s.ShouldCorrectImports = !s.DiagnosticEngine.isEmpty) :
    (dispatch sm o s e).ShouldCorrectImports = !(dispatch sm o s e).DiagnosticEngine.isEmpty := by
  cases e with
  | InclusionDirective l f a r i =>
    cases hm : sm.isInMainFile l with
    | false =>
      simp only [dispatch, InclusionDirective_not_main sm s l f a r i hm]
      exact h
    | true =>
      simp only [dispatch, InclusionDirective_main sm s l f a r i hm, h]
      cases hl : lineAfterFirstModule sm s l <;> cases hd : s.DiagnosticEngine <;> simp
  | moduleImport l p =>
    cases hm : sm.isInMainFile l with
    | false =>
      simp only [dispatch, moduleImport_not_main sm o s l p hm]
      exact h
    | true =>
      by_cases hn : p.getLast?.getD "" ∈ o.RemoveImport
      · simp only [dispatch, moduleImport_removed sm o s l p hm hn]
        exact h
      · simp only [dispatch, moduleImport_recorded sm o s l p hm hn]
        exact h
  | FileNotFound f =>
    exact h

theorem deliver_flag_eq_reported (sm : SourceManager) (o : Options) (evs : List PPEvent) :
    ∀ s : Callback, s.ShouldCorrectImports = !s.DiagnosticEngine.isEmpty →
    (deliver sm o s evs).ShouldCorrectImports = !(deliver sm o s evs).DiagnosticEngine.isEmpty := by
  induction evs with
  | nil => intro s h; exact h
  | cons e evs ih =>
    intro s h
    rw [deliver_cons]
    exact ih _ (dispatch_flag_eq_reported sm o s e h)

/-- From a callback whose flag is clear, for every stream of events with valid
positions that sets the flag, with `MoveImportOrder` on: `EndOfMainFile` calls
`RemoveText` and `ReplaceText` over the range from the adjusted start to
`LastLocation`; the text is the textual lines, one empty line and the semantic
lines, joined by single newlines, each group being the records of the stream,
ordered by name when `OrderOption` is on and in encounter order otherwise; both
groups are non-empty and the text ends with the `;` of the last semantic line. -/
theorem rewrite_after_violation (sm : SourceManager) (srt : StdSort) (o : Options)
    (evs : List PPEvent) (hmove : o.MoveImportOrder = true)
    (hv : ∀ e ∈ evs, e.validPositions = true)
    (hflag : (deliver sm o (construct false) evs).ShouldCorrectImports = true) :
    (runFile sm srt o false evs).Rewriter =
      (deliver sm o (construct false) evs).Rewriter ++
        [RewriterCall.RemoveText (MoveRange sm (deliver sm o (construct false) evs))
          RewriteOptions.default,
         RewriterCall.ReplaceText (MoveRange sm (deliver sm o (construct false) evs))
          (CorrectedImports (runFile sm srt o false evs))] ∧
    CorrectedImports (runFile sm srt o false evs) =
      String.intercalate "\n"
        ((runFile sm srt o false evs).Imports.map Import.to_string ++ [""] ++
          (runFile sm srt o false evs).SemanticImports.map SemanticImport.to_string) ∧
    (runFile sm srt o false evs).Imports.Perm (textualRecords sm evs) ∧
    (runFile sm srt o false evs).SemanticImports.Perm (semanticRecords sm o evs) ∧
    (o.OrderOption = true →
      (runFile sm srt o false evs).Imports.Pairwise
        (fun a b => stringLess b.Name a.Name = false) ∧
      (runFile sm srt o false evs).SemanticImports.Pairwise
        (fun a b => stringLess b.Name a.Name = false)) ∧
    (o.OrderOption = false →
      (runFile sm srt o false evs).Imports = textualRecords sm evs ∧
      (runFile sm srt o false evs).SemanticImports = semanticRecords sm o evs) ∧
    (runFile sm srt o false evs).Imports ≠ [] ∧
    (runFile sm srt o false evs).SemanticImports ≠ [] ∧
    (CorrectedImports (runFile sm srt o false evs)).data.getLast? = some ';' := by
  have hb := flag_implies_boundaries sm srt o evs hv hflag
  have ht := MoveImports_text sm srt o (deliver sm o (construct false) evs) hflag
    hb.2.2.1 hb.2.2.2.1 hmove
  have hI : (deliver sm o (construct false) evs).Imports = textualRecords sm evs := by
    rw [deliver_Imports]
    simp [construct]
  have hS : (deliver sm o (construct false) evs).SemanticImports = semanticRecords sm o evs := by
    rw [deliver_SemanticImports]
    simp [construct]
  have hEI := ht.2.2.2.2.2.1
  have hES := ht.2.2.2.2.2.2
  rw [hI] at hEI
  rw [hS] at hES
  have hpI : (runFile sm srt o false evs).Imports.Perm (textualRecords sm evs) := by
    unfold runFile
    rw [hEI]
    split
    · exact srt.perm _ _
    · exact List.Perm.refl _
  have hpS : (runFile sm srt o false evs).SemanticImports.Perm (semanticRecords sm o evs) := by
    unfold runFile
    rw [hES]
    split
    · exact srt.perm _ _
    · exact List.Perm.refl _
  have hneI : (runFile sm srt o false evs).Imports ≠ [] := by
    intro h
    rw [h] at hpI
    exact hb.1 (by rw [hI]; exact (List.nil_perm.1 hpI))
  have hneS : (runFile sm srt o false evs).SemanticImports ≠ [] := by
    intro h
    rw [h] at hpS
    exact hb.2.1 (by rw [hS]; exact (List.nil_perm.1 hpS))
  refine ⟨ht.1, ht.2.2.1, hpI, hpS, ?_, ?_, hneI, hneS, ht.2.2.2.1 hneS⟩
  · intro hO
    unfold runFile
    rw [hEI, hES]
    simp only [hO, ↓reduceIte]
    exact ⟨srt.sorted _ _ (strictWeakOrder_of_key Import.Name),
      srt.sorted _ _ (strictWeakOrder_of_key SemanticImport.Name)⟩
  · intro hO
    unfold runFile
    rw [hEI, hES]
    simp [hO]

/-- C2, amended: with both options on and the flag clear at the start, a
stream of textual imports followed by semantic imports raises no violation and
no warning, and `EndOfMainFile` makes no call on the rewriter. For every stream
the flag is set exactly when a warning was reported, and without it
`EndOfMainFile` makes no call. For every stream with valid positions that does
raise a violation, `EndOfMainFile` replaces the range from the adjusted start
to `LastLocation` with the textual lines, one empty line and the semantic
lines, joined by single newlines and ending with the `;` of the last semantic
line, each group being the records of the stream ordered by name. In
`violationText` (`z`, then `"b.h"` and `"a.h"` on the next lines) the text is,
whatever `std::sort` does with equal names, `#import "a.h"`, `#import "b.h"`, a
blank line, `@import z;`. -/
theorem textual_then_semantic (sm : SourceManager) (srt : StdSort) (R : List String)
    (evs : List PPEvent) :
    (∀ ts ss : List PPEvent, evs = ts ++ ss →
      (∀ e ∈ ts, e.isInclusionDirective = true) → (∀ e ∈ ss, e.isModuleImport = true) →
      (deliver sm ⟨true, true, R⟩ (construct false) evs).ShouldCorrectImports = false ∧
      (runFile sm srt ⟨true, true, R⟩ false evs).DiagnosticEngine = [] ∧
      (runFile sm srt ⟨true, true, R⟩ false evs).Rewriter =
        (deliver sm ⟨true, true, R⟩ (construct false) evs).Rewriter) ∧
    (deliver sm ⟨true, true, R⟩ (construct false) evs).ShouldCorrectImports =
      !(deliver sm ⟨true, true, R⟩ (construct false) evs).DiagnosticEngine.isEmpty ∧
    ((deliver sm ⟨true, true, R⟩ (construct false) evs).ShouldCorrectImports = false →
      (runFile sm srt ⟨true, true, R⟩ false evs).Rewriter =
        (deliver sm ⟨true, true, R⟩ (construct false) evs).Rewriter) ∧
    ((∀ e ∈ evs, e.validPositions = true) →
      (deliver sm ⟨true, true, R⟩ (construct false) evs).ShouldCorrectImports = true →
      (runFile sm srt ⟨true, true, R⟩ false evs).Rewriter =
        (deliver sm ⟨true, true, R⟩ (construct false) evs).Rewriter ++
          [RewriterCall.RemoveText
            (MoveRange sm (deliver sm ⟨true, true, R⟩ (construct false) evs))
            RewriteOptions.default,
           RewriterCall.ReplaceText
            (MoveRange sm (deliver sm ⟨true, true, R⟩ (construct false) evs))
            (CorrectedImports (runFile sm srt ⟨true, true, R⟩ false evs))] ∧
      CorrectedImports (runFile sm srt ⟨true, true, R⟩ false evs) =
        String.intercalate "\n"
          ((runFile sm srt ⟨true, true, R⟩ false evs).Imports.map Import.to_string ++ [""] ++
            (runFile sm srt ⟨true, true, R⟩ false evs).SemanticImports.map
              SemanticImport.to_string) ∧
      (runFile sm srt ⟨true, true, R⟩ false evs).Imports.Perm (textualRecords sm evs) ∧
      (runFile sm srt ⟨true, true, R⟩ false evs).Imports.Pairwise
        (fun a b => stringLess b.Name a.Name = false) ∧
      (runFile sm srt ⟨true, true, R⟩ false evs).SemanticImports.Perm
        (semanticRecords sm ⟨true, true, R⟩ evs) ∧
      (runFile sm srt ⟨true, true, R⟩ false evs).SemanticImports.Pairwise
        (fun a b => stringLess b.Name a.Name = false) ∧
      (runFile sm srt ⟨true, true, R⟩ false evs).Imports ≠ [] ∧
      (runFile sm srt ⟨true, true, R⟩ false evs).SemanticImports ≠ [] ∧
      (CorrectedImports (runFile sm srt ⟨true, true, R⟩ false evs)).data.getLast? =
        some ';') ∧
    (runFile (mainFileSM violationText) srt ⟨true, true, []⟩ false violationEvents).Rewriter =
      [RewriterCall.RemoveText (SourceRange.mk (at_ 1) (at_ 38)) RewriteOptions.default,
       RewriterCall.ReplaceText (SourceRange.mk (at_ 1) (at_ 38))
        "#import \"a.h\"\n#import \"b.h\"\n\n@import z;"] := by
  refine ⟨?_, ?_, ?_, ?_, ?_⟩
  · intro ts ss hevs hts hss
    rw [hevs]
    exact no_violation_no_rewrite sm srt ⟨true, true, R⟩ (ts ++ ss)
      (noTextualAfterSemantic_of_textual_semantic sm _ ts ss hts hss)
  · exact deliver_flag_eq_reported sm _ evs (construct false) rfl
  · intro hf
    exact (EndOfMainFile_not_flagged sm srt ⟨true, true, R⟩ _ hf).1
  · intro hv hflag
    have h := rewrite_after_violation sm srt ⟨true, true, R⟩ evs rfl hv hflag
    exact ⟨h.1, h.2.1, h.2.2.1, (h.2.2.2.2.1 rfl).1, h.2.2.2.1, (h.2.2.2.2.1 rfl).2,
      h.2.2.2.2.2.2.1, h.2.2.2.2.2.2.2.1, h.2.2.2.2.2.2.2.2⟩
  · have hd : deliver (mainFileSM violationText) ⟨true, true, []⟩ (construct false)
        violationEvents =
        Callback.mk [Import.mk "b.h" (at_ 11) false, Import.mk "a.h" (at_ 25) false]
          [SemanticImport.mk "z" (at_ 1)] (at_ 1) (at_ 38) true []
          [Report.mk (at_ 11) warningFormat, Report.mk (at_ 25) warningFormat] [] := by
      decide
    have h1 := StdSort.sort_pair srt (fun a b : Import => stringLess a.Name b.Name)
      (strictWeakOrder_of_key Import.Name) (Import.mk "a.h" (at_ 25) false)
      (Import.mk "b.h" (at_ 11) false) (by decide)
    have h2 := StdSort.sort_singleton srt
      (fun a b : SemanticImport => stringLess a.Name b.Name) (SemanticImport.mk "z" (at_ 1))
    unfold runFile
    rw [hd]
    simp only [EndOfMainFile, SortImports, MoveImports, h1, h2]
    decide

/-- Witness of C2: Scenario A is a stream of textual imports followed by
semantic imports and its run ends with no call on the rewriter; the stream of
`violationText` has valid positions and sets the flag, and its run with the
`std::sort` of libstdc++ ends with the two calls of a rewrite. -/
theorem textual_then_semantic_witness :
    (∀ e ∈ scenarioATextual, e.isInclusionDirective = true) ∧
    (∀ e ∈ scenarioASemantic, e.isModuleImport = true) ∧
    (runFile (mainFileSM scenarioAText) libstdcxxStdSort ⟨true, true, []⟩ false
      (scenarioATextual ++ scenarioASemantic)).Rewriter =
      (deliver (mainFileSM scenarioAText) ⟨true, true, []⟩ (construct false)
        (scenarioATextual ++ scenarioASemantic)).Rewriter ∧
    (∀ e ∈ violationEvents, e.validPositions = true) ∧
    (deliver (mainFileSM violationText) ⟨true, true, []⟩ (construct false)
      violationEvents).ShouldCorrectImports = true ∧
    (CorrectedImports (runFile (mainFileSM violationText) libstdcxxStdSort ⟨true, true, []⟩
      false violationEvents)).data.getLast? = some ';' :=
  ⟨by decide, by decide,
   ((textual_then_semantic (mainFileSM scenarioAText) libstdcxxStdSort []
      (scenarioATextual ++ scenarioASemantic)).1 scenarioATextual scenarioASemantic rfl
      (by decide) (by decide)).2.2,
   by decide, by decide,
   ((textual_then_semantic (mainFileSM violationText) libstdcxxStdSort []
      violationEvents).2.2.2.1 (by decide) (by decide)).2.2.2.2.2.2.2.2⟩

end mmi
